import Mathlib

/-!
# Verification of the LDOCE5 Viewer query aggregation engine

This file is a shallow embedding, in Lean 4, of the query aggregation and
debounce engine implemented in `ldoce5viewer/qtgui/main.py`: the result
merger, the adaptive commit-delay function, the instant-search entry point,
the auto-full-text and spell-correction timer handlers, the incremental
search wrapper, and the selection logic of the item list.

Python result items are 4-tuples `(text, path, sortkey, priority)`
(see `itemgetter(0)`/`(1)`/`(2)`/`(3)` in `_updateIndex` and
`selectItemRelative`); they are embedded as a structure.  Python `None`
becomes `Option.none`; Python truthiness of a result tuple (used by
`if incr_res and full_res:`) is embedded explicitly.  The arithmetic of
`_incr_delay_func` and `SequenceMatcher.quick_ratio` is performed by CPython
in IEEE-754 binary64; it is embedded exactly, as correctly-rounded rational
arithmetic (round to nearest, ties to even, 53-bit significand; the exponent
is unbounded, which agrees with binary64 on every magnitude reachable here).
-/

set_option autoImplicit false

/-- One result item: the Python tuple `(text, path, sortkey, priority)`. -/
structure Item where
  text : String
  path : String
  sortkey : String
  priority : Int
deriving DecidableEq

/-- Python truthiness of `self._incr_results` / `self._fts_results`:
`None` is falsy, an empty tuple is falsy, a non-empty tuple is truthy. -/
def truthy : Option (List Item) → Bool
  | none => false
  | some l => !l.isEmpty

/-- The merge performed by `_updateIndex` (main.py lines 313-324):

```text
if incr_res and full_res:
    closed = set(map(path_getter, incr_res))
    self._found_items = incr_res + tuple(
        item for item in full_res if path_getter(item) not in closed)
elif incr_res:
    self._found_items = tuple(incr_res)
elif full_res:
    self._found_items = tuple(full_res)
else:
    self._found_items = tuple()
```
-/
def mergeResults (incr_res full_res : Option (List Item)) : List Item :=
  if truthy incr_res && truthy full_res then
    let i := incr_res.getD []
    let closed := i.map Item.path
    i ++ (full_res.getD []).filter (fun item => !closed.contains item.path)
  else if truthy incr_res then incr_res.getD []
  else if truthy full_res then full_res.getD []
  else []

theorem mergeResults_some_some (i f : List Item) :
    mergeResults (some i) (some f)
      = i ++ f.filter (fun item => !(i.map Item.path).contains item.path) := by
  rcases i with _ | ⟨a, i'⟩
  · have hf : f.filter
        (fun item => !((List.map Item.path []).contains item.path)) = f :=
      List.filter_eq_self.2 (fun x _ => rfl)
    rw [hf, List.nil_append]
    rcases f with _ | ⟨b, f'⟩
    · rfl
    · simp [mergeResults, truthy]
  · rcases f with _ | ⟨b, f'⟩
    · simp [mergeResults, truthy]
    · simp [mergeResults, truthy]

theorem mergeResults_none_right (i : List Item) :
    mergeResults (some i) none = i := by
  rcases i with _ | ⟨a, i'⟩ <;> simp [mergeResults, truthy]

/-- If the incremental side is absent, the full-text result is committed
verbatim (and absence of both yields the empty list). -/
theorem mergeResults_none_left (f : Option (List Item)) :
    mergeResults none f = f.getD [] := by
  rcases f with _ | f
  · rfl
  · rcases f with _ | ⟨b, f'⟩ <;> simp [mergeResults, truthy]

/--
**C1.** For result sequences `incr` and `full` that are both present, the
merged list committed to the UI equals `incr ++ (items of full whose path
does not occur in incr)`: `incr`'s relative order first, then `full`'s
relative order for the non-duplicate remainder, and (when the paths inside
`incr` are pairwise distinct, as delivered by the backend) every item whose
path occurs in both sequences appears exactly once, at its position from
`incr`.  The deduplication key is `path` only.
-/
theorem C1_merge_dedup (i f : List Item)
    (hnodup : (i.map Item.path).Nodup) :
    mergeResults (some i) (some f)
        = i ++ f.filter (fun item => !(i.map Item.path).contains item.path)
    ∧ (∀ p : String, p ∈ i.map Item.path → p ∈ f.map Item.path →
        ((mergeResults (some i) (some f)).map Item.path).count p = 1
        ∧ ((mergeResults (some i) (some f)).map Item.path).indexOf p
            = (i.map Item.path).indexOf p) := by
  refine ⟨mergeResults_some_some i f, ?_⟩
  intro p hpi _hpf
  rw [mergeResults_some_some i f]
  have hfilter : ∀ q ∈ (f.filter
      (fun item => !(i.map Item.path).contains item.path)).map Item.path,
      q ≠ p := by
    intro q hq
    rcases List.mem_map.1 hq with ⟨item, hitem, rfl⟩
    have hcon := List.of_mem_filter hitem
    rw [Bool.not_eq_true'] at hcon
    intro hqp
    subst hqp
    have hcon' : List.elem item.path (List.map Item.path i) = false := hcon
    exact absurd (List.elem_iff.2 hpi) (by rw [hcon']; simp)
  constructor
  · rw [List.map_append, List.count_append]
    have h1 : (i.map Item.path).count p = 1 :=
      List.count_eq_one_of_mem hnodup hpi
    have h2 : ((f.filter
        (fun item => !(i.map Item.path).contains item.path)).map
          Item.path).count p = 0 := by
      rw [List.count_eq_zero]
      intro hmem
      exact hfilter p hmem rfl
    omega
  · rw [List.map_append]
    exact List.indexOf_append_of_mem hpi

/-- Witness for C1 at a concrete input: the shared path `"p2"` is kept only
at its position from `incr`, while the fresh path `"p3"` is appended. -/
theorem C1_merge_dedup_witness :
    mergeResults
        (some [⟨"a", "p1", "alpha", 0⟩, ⟨"b", "p2", "beta", 1⟩])
        (some [⟨"b2", "p2", "beta", 1⟩, ⟨"c", "p3", "gamma", 0⟩])
      = [⟨"a", "p1", "alpha", 0⟩, ⟨"b", "p2", "beta", 1⟩,
         ⟨"c", "p3", "gamma", 0⟩]
    ∧ ((mergeResults
        (some [⟨"a", "p1", "alpha", 0⟩, ⟨"b", "p2", "beta", 1⟩])
        (some [⟨"b2", "p2", "beta", 1⟩, ⟨"c", "p3", "gamma", 0⟩])).map
          Item.path).count "p2" = 1 := by
  have h := C1_merge_dedup
    [⟨"a", "p1", "alpha", 0⟩, ⟨"b", "p2", "beta", 1⟩]
    [⟨"b2", "p2", "beta", 1⟩, ⟨"c", "p3", "gamma", 0⟩]
    (by decide)
  refine ⟨?_, ?_⟩
  · rw [h.1]
    decide
  · exact (h.2 "p2" (by decide) (by decide)).1

/-! ## Exact binary64 arithmetic

`_incr_delay_func` and `SequenceMatcher.quick_ratio` run on CPython floats
(IEEE-754 binary64).  The functions below embed that arithmetic into `ℚ`
exactly: every binary64 value is a rational, and each arithmetic step of the
embedded code is correctly rounded (round to nearest, ties to even, 53-bit
significand).  The exponent is unbounded, which agrees with binary64 at every
magnitude reached by the embedded computations. -/

/-- `2 ^ e` as a rational, for an integer exponent. -/
def zpow2 (e : ℤ) : ℚ :=
  if 0 ≤ e then ((2 ^ e.toNat : ℕ) : ℚ) else 1 / ((2 ^ (-e).toNat : ℕ) : ℚ)

theorem zpow2_eq (e : ℤ) : zpow2 e = (2 : ℚ) ^ e := by
  unfold zpow2
  split
  · rename_i h
    rw [show ((2 ^ e.toNat : ℕ) : ℚ) = (2:ℚ) ^ e.toNat by push_cast; ring,
      ← zpow_natCast (2:ℚ) e.toNat, Int.toNat_of_nonneg h]
  · rename_i h
    rw [show ((2 ^ (-e).toNat : ℕ) : ℚ) = (2:ℚ) ^ (-e).toNat by push_cast; ring,
      one_div, ← zpow_natCast (2:ℚ) (-e).toNat,
      Int.toNat_of_nonneg (by omega : 0 ≤ -e), ← zpow_neg, neg_neg]

theorem zpow2_pos (e : ℤ) : 0 < zpow2 e := by
  rw [zpow2_eq]; positivity

theorem zpow2_add (a b : ℤ) : zpow2 (a + b) = zpow2 a * zpow2 b := by
  rw [zpow2_eq, zpow2_eq, zpow2_eq]; exact zpow_add₀ (by norm_num) a b

theorem zpow2_le_zpow2 {a b : ℤ} (h : a ≤ b) : zpow2 a ≤ zpow2 b := by
  rw [zpow2_eq, zpow2_eq]
  exact (zpow_le_zpow_iff_right₀ (by norm_num : (1:ℚ) < 2)).mpr h

theorem lt_of_zpow2_lt {a b : ℤ} (h : zpow2 a < zpow2 b) : a < b := by
  rw [zpow2_eq, zpow2_eq] at h
  exact (zpow_lt_zpow_iff_right₀ (by norm_num : (1:ℚ) < 2)).mp h

theorem zpow2_coe_sub (x y : ℕ) : zpow2 ((x : ℤ) - (y : ℤ)) = (2 ^ x : ℚ) / (2 ^ y : ℚ) := by
  rw [zpow2_eq, zpow_sub₀ (by norm_num : (2:ℚ) ≠ 0), zpow_natCast, zpow_natCast]

/-- Round a rational to the nearest integer, ties to even (the IEEE-754
default rounding used by CPython float arithmetic). -/
def roundTiesEven (q : ℚ) : ℤ :=
  if q - (Int.floor q : ℚ) < 1/2 then Int.floor q
  else if 1/2 < q - (Int.floor q : ℚ) then Int.floor q + 1
  else if Int.floor q % 2 = 0 then Int.floor q else Int.floor q + 1

theorem roundTiesEven_sub_le (q : ℚ) : |(roundTiesEven q : ℚ) - q| ≤ 1/2 := by
  have h1 : (Int.floor q : ℚ) ≤ q := Int.floor_le q
  have h2 : q < (Int.floor q : ℚ) + 1 := Int.lt_floor_add_one q
  unfold roundTiesEven
  rw [abs_le]
  split_ifs with ha hb hc <;> constructor <;> push_cast <;> linarith

theorem roundTiesEven_intCast (n : ℤ) : roundTiesEven (n : ℚ) = n := by
  unfold roundTiesEven
  rw [Int.floor_intCast]
  norm_num

theorem roundTiesEven_mono {p q : ℚ} (h : p ≤ q) :
    roundTiesEven p ≤ roundTiesEven q := by
  rcases eq_or_lt_of_le h with rfl | hlt
  · exact le_refl _
  by_contra hc
  push_neg at hc
  have hstep : (roundTiesEven q : ℚ) + 1 ≤ (roundTiesEven p : ℚ) := by
    exact_mod_cast Int.add_one_le_of_lt hc
  have hp := abs_le.1 (roundTiesEven_sub_le p)
  have hq := abs_le.1 (roundTiesEven_sub_le q)
  linarith [hp.1, hp.2, hq.1, hq.2]

/-- `⌊log₂ q⌋` of a positive rational, computed via `Nat.log2` on the
numerator and the denominator. -/
def floorLog2 (q : ℚ) : ℤ :=
  let g : ℤ := (q.num.natAbs.log2 : ℤ) - (q.den.log2 : ℤ)
  if zpow2 g ≤ q then g else g - 1

theorem floorLog2_spec_aux {q : ℚ} {g : ℤ}
    (hlow : zpow2 (g - 1) < q) (hup : q < zpow2 (g + 1)) :
    zpow2 (if zpow2 g ≤ q then g else g - 1) ≤ q
    ∧ q < zpow2 ((if zpow2 g ≤ q then g else g - 1) + 1) := by
  split
  · rename_i h
    exact ⟨h, hup⟩
  · rename_i h
    refine ⟨le_of_lt hlow, ?_⟩
    have hg : g - 1 + 1 = g := by ring
    rw [hg]
    exact lt_of_not_le h

theorem floorLog2_spec {q : ℚ} (hq : 0 < q) :
    zpow2 (floorLog2 q) ≤ q ∧ q < zpow2 (floorLog2 q + 1) := by
  have hnum : 0 < q.num := Rat.num_pos.2 hq
  have hncast : ((q.num.natAbs : ℕ) : ℚ) = (q.num : ℚ) := by
    rw [← Int.cast_natCast (R := ℚ), Int.natAbs_of_nonneg hnum.le]
  have hn0 : q.num.natAbs ≠ 0 := by
    rw [Int.natAbs_ne_zero]
    omega
  have hd0 : q.den ≠ 0 := by
    have := q.den_pos
    omega
  have hdpos : (0:ℚ) < (q.den : ℚ) := by
    exact_mod_cast q.den_pos
  have hqd : (q.num : ℚ) = q * (q.den : ℚ) := (Rat.mul_den_eq_num q).symm
  have ha1 : ((2:ℚ) ^ q.num.natAbs.log2) ≤ ((q.num.natAbs : ℕ) : ℚ) := by
    exact_mod_cast Nat.log2_self_le hn0
  have ha2 : ((q.num.natAbs : ℕ) : ℚ) < (2:ℚ) ^ (q.num.natAbs.log2 + 1) := by
    exact_mod_cast Nat.lt_log2_self
  have hb1 : ((2:ℚ) ^ q.den.log2) ≤ ((q.den : ℕ) : ℚ) := by
    exact_mod_cast Nat.log2_self_le hd0
  have hb2 : ((q.den : ℕ) : ℚ) < (2:ℚ) ^ (q.den.log2 + 1) := by
    exact_mod_cast Nat.lt_log2_self
  have hup : q < zpow2 ((q.num.natAbs.log2 : ℤ) - (q.den.log2 : ℤ) + 1) := by
    have he : (q.num.natAbs.log2 : ℤ) - (q.den.log2 : ℤ) + 1
        = ((q.num.natAbs.log2 + 1 : ℕ) : ℤ) - (q.den.log2 : ℤ) := by
      push_cast; ring
    rw [he, zpow2_coe_sub,
      lt_div_iff₀ (by positivity : (0:ℚ) < (2:ℚ) ^ q.den.log2)]
    have hmul : q * (2:ℚ) ^ q.den.log2 ≤ q * (q.den : ℚ) :=
      mul_le_mul_of_nonneg_left hb1 hq.le
    linarith [hmul, hqd, hncast, ha2]
  have hlow : zpow2 ((q.num.natAbs.log2 : ℤ) - (q.den.log2 : ℤ) - 1) < q := by
    have he : (q.num.natAbs.log2 : ℤ) - (q.den.log2 : ℤ) - 1
        = ((q.num.natAbs.log2 : ℕ) : ℤ) - ((q.den.log2 + 1 : ℕ) : ℤ) := by
      push_cast; ring
    rw [he, zpow2_coe_sub,
      div_lt_iff₀ (by positivity : (0:ℚ) < (2:ℚ) ^ (q.den.log2 + 1))]
    have hmul : q * (q.den : ℚ) < q * (2:ℚ) ^ (q.den.log2 + 1) :=
      mul_lt_mul_of_pos_left hb2 hq
    linarith [hmul, hqd, hncast, ha1]
  have hfl : floorLog2 q
      = if zpow2 ((q.num.natAbs.log2 : ℤ) - (q.den.log2 : ℤ)) ≤ q
        then (q.num.natAbs.log2 : ℤ) - (q.den.log2 : ℤ)
        else (q.num.natAbs.log2 : ℤ) - (q.den.log2 : ℤ) - 1 := rfl
  rw [hfl]
  exact floorLog2_spec_aux hlow hup

theorem zpow2_zero : zpow2 0 = 1 := by norm_num [zpow2]

theorem zpow2_neg_one : zpow2 (-1) = 1/2 := by norm_num [zpow2]

theorem le_roundTiesEven {y : ℚ} {n : ℤ} (h : (n : ℚ) ≤ y) :
    n ≤ roundTiesEven y := by
  have hb := (abs_le.1 (roundTiesEven_sub_le y)).1
  have hlt : ((n - 1 : ℤ) : ℚ) < (roundTiesEven y : ℚ) := by push_cast; linarith
  have : n - 1 < roundTiesEven y := by exact_mod_cast hlt
  omega

theorem roundTiesEven_le {y : ℚ} {n : ℤ} (h : y ≤ (n : ℚ)) :
    roundTiesEven y ≤ n := by
  have hb := (abs_le.1 (roundTiesEven_sub_le y)).2
  have hlt : (roundTiesEven y : ℚ) < ((n + 1 : ℤ) : ℚ) := by push_cast; linarith
  have : roundTiesEven y < n + 1 := by exact_mod_cast hlt
  omega

/-- The binary64 value of a positive rational: the 53-bit significand is
rounded to nearest, ties to even. -/
def flPos (q : ℚ) : ℚ :=
  (roundTiesEven (q * zpow2 (52 - floorLog2 q)) : ℚ) * zpow2 (floorLog2 q - 52)

/-- Correctly-rounded conversion of an exact rational to an IEEE-754 binary64
value (unbounded exponent: no overflow or subnormal range is reachable by the
embedded computations). -/
def fl (q : ℚ) : ℚ :=
  if q = 0 then 0 else if 0 < q then flPos q else -flPos (-q)

theorem flPos_scaled_lb {q : ℚ} (hq : 0 < q) :
    zpow2 52 ≤ q * zpow2 (52 - floorLog2 q) := by
  obtain ⟨h1, _⟩ := floorLog2_spec hq
  calc zpow2 52 = zpow2 (floorLog2 q) * zpow2 (52 - floorLog2 q) := by
        rw [← zpow2_add]; congr 1; ring
    _ ≤ q * zpow2 (52 - floorLog2 q) :=
        mul_le_mul_of_nonneg_right h1 (zpow2_pos _).le

theorem flPos_scaled_ub {q : ℚ} (hq : 0 < q) :
    q * zpow2 (52 - floorLog2 q) < zpow2 53 := by
  obtain ⟨_, h2⟩ := floorLog2_spec hq
  calc q * zpow2 (52 - floorLog2 q)
      < zpow2 (floorLog2 q + 1) * zpow2 (52 - floorLog2 q) :=
        mul_lt_mul_of_pos_right h2 (zpow2_pos _)
    _ = zpow2 53 := by rw [← zpow2_add]; congr 1; ring

theorem zpow2_intCast_val (k : ℕ) : zpow2 (k : ℕ) = ((2 ^ k : ℤ) : ℚ) := by
  rw [zpow2_eq]
  push_cast
  norm_num

theorem flPos_ge {q : ℚ} (hq : 0 < q) : zpow2 (floorLog2 q) ≤ flPos q := by
  have hm : (2 ^ 52 : ℤ) ≤ roundTiesEven (q * zpow2 (52 - floorLog2 q)) := by
    apply le_roundTiesEven
    rw [show ((2 ^ 52 : ℤ) : ℚ) = zpow2 52 from (zpow2_intCast_val 52).symm]
    exact flPos_scaled_lb hq
  have hmq : ((2 ^ 52 : ℤ) : ℚ) ≤ (roundTiesEven (q * zpow2 (52 - floorLog2 q)) : ℚ) := by
    exact_mod_cast hm
  have h52 : ((2 ^ 52 : ℤ) : ℚ) = zpow2 52 := (zpow2_intCast_val 52).symm
  calc zpow2 (floorLog2 q) = zpow2 52 * zpow2 (floorLog2 q - 52) := by
        rw [← zpow2_add]; congr 1; ring
    _ ≤ (roundTiesEven (q * zpow2 (52 - floorLog2 q)) : ℚ) * zpow2 (floorLog2 q - 52) := by
        apply mul_le_mul_of_nonneg_right _ (zpow2_pos _).le
        rw [← h52]; exact hmq
    _ = flPos q := rfl

theorem flPos_le {q : ℚ} (hq : 0 < q) : flPos q ≤ zpow2 (floorLog2 q + 1) := by
  have hm : roundTiesEven (q * zpow2 (52 - floorLog2 q)) ≤ (2 ^ 53 : ℤ) := by
    apply roundTiesEven_le
    rw [show ((2 ^ 53 : ℤ) : ℚ) = zpow2 53 from (zpow2_intCast_val 53).symm]
    exact (flPos_scaled_ub hq).le
  have hmq : (roundTiesEven (q * zpow2 (52 - floorLog2 q)) : ℚ) ≤ ((2 ^ 53 : ℤ) : ℚ) := by
    exact_mod_cast hm
  have h53 : ((2 ^ 53 : ℤ) : ℚ) = zpow2 53 := (zpow2_intCast_val 53).symm
  calc flPos q
      ≤ zpow2 53 * zpow2 (floorLog2 q - 52) := by
        apply mul_le_mul_of_nonneg_right _ (zpow2_pos _).le
        rw [← h53]; exact hmq
    _ = zpow2 (floorLog2 q + 1) := by rw [← zpow2_add]; congr 1; ring

theorem flPos_err {q : ℚ} (hq : 0 < q) :
    |flPos q - q| ≤ zpow2 (floorLog2 q - 53) := by
  have habs := roundTiesEven_sub_le (q * zpow2 (52 - floorLog2 q))
  have hst : zpow2 (52 - floorLog2 q) * zpow2 (floorLog2 q - 52) = 1 := by
    rw [← zpow2_add]
    have : 52 - floorLog2 q + (floorLog2 q - 52) = 0 := by ring
    rw [this, zpow2_zero]
  have hsplit : flPos q - q
      = ((roundTiesEven (q * zpow2 (52 - floorLog2 q)) : ℚ)
          - q * zpow2 (52 - floorLog2 q)) * zpow2 (floorLog2 q - 52) := by
    unfold flPos
    have := hst
    nlinarith [hst]
  rw [hsplit, abs_mul, abs_of_pos (zpow2_pos (floorLog2 q - 52))]
  calc |(roundTiesEven (q * zpow2 (52 - floorLog2 q)) : ℚ)
          - q * zpow2 (52 - floorLog2 q)| * zpow2 (floorLog2 q - 52)
      ≤ (1/2) * zpow2 (floorLog2 q - 52) :=
        mul_le_mul_of_nonneg_right habs (zpow2_pos _).le
    _ = zpow2 (floorLog2 q - 53) := by
        rw [← zpow2_neg_one, ← zpow2_add]; congr 1; ring

theorem fl_of_pos {q : ℚ} (hq : 0 < q) : fl q = flPos q := by
  unfold fl
  rw [if_neg (ne_of_gt hq), if_pos hq]

theorem fl_zero : fl 0 = 0 := by simp [fl]

theorem fl_pos {q : ℚ} (hq : 0 < q) : 0 < fl q := by
  rw [fl_of_pos hq]
  exact lt_of_lt_of_le (zpow2_pos _) (flPos_ge hq)

theorem fl_nonneg {q : ℚ} (h : 0 ≤ q) : 0 ≤ fl q := by
  rcases eq_or_lt_of_le h with rfl | hlt
  · rw [fl_zero]
  · exact (fl_pos hlt).le

theorem fl_err {q : ℚ} (hq : 0 < q) :
    |fl q - q| ≤ zpow2 (floorLog2 q - 53) := by
  rw [fl_of_pos hq]
  exact flPos_err hq

theorem fl_ge_zpow2 {q : ℚ} {e : ℤ} (h : zpow2 e ≤ q) : zpow2 e ≤ fl q := by
  have hq : 0 < q := lt_of_lt_of_le (zpow2_pos e) h
  have hE : e ≤ floorLog2 q := by
    by_contra hc
    push_neg at hc
    have h1 : floorLog2 q + 1 ≤ e := hc
    have := (floorLog2_spec hq).2
    have h2 : zpow2 (floorLog2 q + 1) ≤ zpow2 e := zpow2_le_zpow2 h1
    linarith
  rw [fl_of_pos hq]
  exact le_trans (zpow2_le_zpow2 hE) (flPos_ge hq)

theorem fl_ge_one {q : ℚ} (h : 1 ≤ q) : 1 ≤ fl q := by
  have h0 : zpow2 0 ≤ q := by rw [zpow2_zero]; exact h
  have := fl_ge_zpow2 (q := q) (e := 0) h0
  rw [zpow2_zero] at this
  exact this

theorem fl_mono {p q : ℚ} (hp : 0 ≤ p) (h : p ≤ q) : fl p ≤ fl q := by
  rcases eq_or_lt_of_le hp with rfl | hppos
  · rw [fl_zero]
    exact fl_nonneg (le_trans hp h)
  have hqpos : 0 < q := lt_of_lt_of_le hppos h
  have hE : floorLog2 p ≤ floorLog2 q := by
    by_contra hc
    push_neg at hc
    have h1 : floorLog2 q + 1 ≤ floorLog2 p := hc
    have h2 := (floorLog2_spec hppos).1
    have h3 := (floorLog2_spec hqpos).2
    have h4 : zpow2 (floorLog2 q + 1) ≤ zpow2 (floorLog2 p) := zpow2_le_zpow2 h1
    linarith
  rcases eq_or_lt_of_le hE with heq | hlt
  · rw [fl_of_pos hppos, fl_of_pos hqpos]
    unfold flPos
    rw [← heq]
    apply mul_le_mul_of_nonneg_right _ (zpow2_pos _).le
    have hr : roundTiesEven (p * zpow2 (52 - floorLog2 p))
        ≤ roundTiesEven (q * zpow2 (52 - floorLog2 p)) :=
      roundTiesEven_mono (mul_le_mul_of_nonneg_right h (zpow2_pos _).le)
    exact_mod_cast hr
  · have h1 : fl p ≤ zpow2 (floorLog2 p + 1) := by
      rw [fl_of_pos hppos]; exact flPos_le hppos
    have h2 : zpow2 (floorLog2 p + 1) ≤ zpow2 (floorLog2 q) :=
      zpow2_le_zpow2 (by omega)
    have h3 : zpow2 (floorLog2 q) ≤ fl q := by
      rw [fl_of_pos hqpos]; exact flPos_ge hqpos
    linarith

theorem floorLog2_unique {q : ℚ} {E : ℤ}
    (h1 : zpow2 E ≤ q) (h2 : q < zpow2 (E + 1)) : floorLog2 q = E := by
  have hq : 0 < q := lt_of_lt_of_le (zpow2_pos E) h1
  obtain ⟨hs1, hs2⟩ := floorLog2_spec hq
  by_contra hc
  rcases lt_or_gt_of_ne hc with hlt | hgt
  · have hle : zpow2 (floorLog2 q + 1) ≤ zpow2 E := zpow2_le_zpow2 (by omega)
    linarith
  · have hle : zpow2 (E + 1) ≤ zpow2 (floorLog2 q) := zpow2_le_zpow2 (by omega)
    linarith

theorem roundTiesEven_eq_low {y : ℚ} {f : ℤ}
    (h1 : (f : ℚ) ≤ y) (h2 : y < (f : ℚ) + 1/2) : roundTiesEven y = f := by
  have hfl : Int.floor y = f :=
    Int.floor_eq_iff.2 ⟨h1, by push_cast; linarith⟩
  unfold roundTiesEven
  rw [hfl, if_pos (by linarith : y - (f : ℚ) < 1/2)]

theorem roundTiesEven_eq_high {y : ℚ} {f : ℤ}
    (h1 : (f : ℚ) + 1/2 < y) (h2 : y < (f : ℚ) + 1) : roundTiesEven y = f + 1 := by
  have hfl : Int.floor y = f :=
    Int.floor_eq_iff.2 ⟨by linarith, by push_cast; linarith⟩
  unfold roundTiesEven
  rw [hfl, if_neg (by linarith : ¬(y - (f : ℚ) < 1/2)),
    if_pos (by linarith : 1/2 < y - (f : ℚ))]

theorem fl_eval {q : ℚ} {E m : ℤ}
    (h1 : zpow2 E ≤ q) (h2 : q < zpow2 (E + 1))
    (hm : roundTiesEven (q * zpow2 (52 - E)) = m) :
    fl q = (m : ℚ) * zpow2 (E - 52) := by
  have hq : 0 < q := lt_of_lt_of_le (zpow2_pos E) h1
  rw [fl_of_pos hq]
  unfold flPos
  rw [floorLog2_unique h1 h2, hm]

/-- Natural numbers below `2 ^ 53` are exactly representable in binary64. -/
theorem fl_natCast_eq {n : ℕ} (h1 : 0 < n) (h2 : (n : ℚ) < zpow2 53) :
    fl (n : ℚ) = (n : ℚ) := by
  have hq : (0:ℚ) < (n : ℚ) := by exact_mod_cast h1
  obtain ⟨hE1, hE2⟩ := floorLog2_spec hq
  have hEle : floorLog2 (n : ℚ) ≤ 52 := by
    by_contra hc
    push_neg at hc
    have hle : zpow2 53 ≤ zpow2 (floorLog2 (n : ℚ)) := zpow2_le_zpow2 (by omega)
    linarith
  have hnn : 0 ≤ 52 - floorLog2 (n : ℚ) := by omega
  have hzp : zpow2 (52 - floorLog2 (n : ℚ))
      = ((2 ^ (52 - floorLog2 (n : ℚ)).toNat : ℕ) : ℚ) := by
    unfold zpow2
    rw [if_pos hnn]
  have hsc : (n : ℚ) * zpow2 (52 - floorLog2 (n : ℚ))
      = (((n * 2 ^ (52 - floorLog2 (n : ℚ)).toNat : ℕ) : ℤ) : ℚ) := by
    rw [hzp]
    push_cast
    ring
  rw [fl_of_pos hq]
  unfold flPos
  rw [hsc, roundTiesEven_intCast]
  push_cast
  rw [show ((2 : ℚ) ^ (52 - floorLog2 (n : ℚ)).toNat)
      = zpow2 (52 - floorLog2 (n : ℚ)) by rw [hzp]; push_cast; ring]
  have hone : zpow2 (52 - floorLog2 (n : ℚ)) * zpow2 (floorLog2 (n : ℚ) - 52) = 1 := by
    rw [← zpow2_add]
    rw [show 52 - floorLog2 (n : ℚ) + (floorLog2 (n : ℚ) - 52) = 0 by ring]
    exact zpow2_zero
  rw [mul_assoc, hone, mul_one]

/-- Relative rounding error of one binary64 rounding step. -/
theorem fl_err_rel {q : ℚ} (hq : 0 ≤ q) : |fl q - q| ≤ q * zpow2 (-53) := by
  rcases eq_or_lt_of_le hq with rfl | hpos
  · rw [fl_zero]
    simp
  · have h1 := fl_err hpos
    have h2 : zpow2 (floorLog2 q - 53) ≤ q * zpow2 (-53) := by
      have h3 : zpow2 (floorLog2 q - 53) = zpow2 (floorLog2 q) * zpow2 (-53) := by
        rw [show floorLog2 q - 53 = floorLog2 q + (-53) from sub_eq_add_neg _ _,
          zpow2_add]
      rw [h3]
      exact mul_le_mul_of_nonneg_right (floorLog2_spec hpos).1 (zpow2_pos _).le
    linarith

theorem zpow2_eval (k : ℕ) : zpow2 ((k : ℕ) : ℤ) = ((2 ^ k : ℕ) : ℚ) := by
  unfold zpow2
  rw [if_pos (Int.natCast_nonneg k)]
  simp

theorem zpow2_neg_val (k : ℕ) (hk : 0 < k) :
    zpow2 (-((k : ℕ) : ℤ)) = 1 / ((2 ^ k : ℕ) : ℚ) := by
  unfold zpow2
  rw [if_neg (by omega : ¬(0 ≤ -((k : ℕ) : ℤ)))]
  norm_num

/-! ## The adaptive commit delay

```text
_INCREMENTAL_LIMIT = 500
_MAX_DELAY_UPDATE_INDEX = 100

def _incr_delay_func(count):
    x = max(0.3, min(1, float(count) / _INCREMENTAL_LIMIT))
    return int(_MAX_DELAY_UPDATE_INDEX * x)
```
(main.py lines 38-39 and 55-57).  The literal `0.3` denotes the binary64
value nearest `3/10`; `float(count)`, the division and the multiplication
are correctly rounded binary64 operations; `min`/`max` compare exactly and
return one of their arguments; the result of `int` is the floor because the
argument is nonnegative. -/

def INCREMENTAL_LIMIT : ℕ := 500

def MAX_DELAY_UPDATE_INDEX : ℕ := 100

def FTS_HWDPHR_LIMIT : ℕ := 10000

/-- The local `x` of `_incr_delay_func`. -/
def incr_delay_x (count : ℕ) : ℚ :=
  max (fl (3/10)) (min 1 (fl (fl (count : ℚ) / (INCREMENTAL_LIMIT : ℚ))))

/-- The return value of `_incr_delay_func`. -/
def incr_delay_func (count : ℕ) : ℤ :=
  Int.floor (fl ((MAX_DELAY_UPDATE_INDEX : ℚ) * incr_delay_x count))

/-- The formula of the claim, read in exact real arithmetic:
`⌊base_delay * max(0.3, min(1, count / incremental_cap))⌋`. -/
def incr_delay_exact (count : ℕ) : ℤ :=
  Int.floor ((MAX_DELAY_UPDATE_INDEX : ℚ)
    * max (3/10) (min 1 ((count : ℚ) / (INCREMENTAL_LIMIT : ℚ))))

theorem fl_03_eval : fl (3/10 : ℚ)
    = ((5404319552844595 : ℤ) : ℚ) * zpow2 ((-2 : ℤ) - 52) := by
  apply fl_eval (E := -2) (m := 5404319552844595)
  · rw [show zpow2 (-2 : ℤ) = 1 / ((2 ^ 2 : ℕ) : ℚ) from zpow2_neg_val 2 (by norm_num)]
    norm_num
  · rw [show zpow2 ((-2 : ℤ) + 1) = 1 / ((2 ^ 1 : ℕ) : ℚ) from zpow2_neg_val 1 (by norm_num)]
    norm_num
  · rw [show zpow2 (52 - (-2 : ℤ)) = ((2 ^ 54 : ℕ) : ℚ) from zpow2_eval 54]
    apply roundTiesEven_eq_low
    · push_cast
      norm_num
    · push_cast
      norm_num

theorem fl_one : fl (1 : ℚ) = 1 := by
  have h := fl_natCast_eq (n := 1) (by norm_num)
    (by rw [show zpow2 (53 : ℤ) = ((2 ^ 53 : ℕ) : ℚ) from zpow2_eval 53]; norm_num)
  simpa using h

theorem fl_hundred : fl (100 : ℚ) = 100 := by
  have h := fl_natCast_eq (n := 100) (by norm_num)
    (by rw [show zpow2 (53 : ℤ) = ((2 ^ 53 : ℕ) : ℚ) from zpow2_eval 53]; norm_num)
  simpa using h

theorem fl_03_le_one : fl (3/10 : ℚ) ≤ 1 := by
  rw [fl_03_eval,
    show zpow2 ((-2 : ℤ) - 52) = 1 / ((2 ^ 54 : ℕ) : ℚ) from zpow2_neg_val 54 (by norm_num)]
  push_cast
  norm_num

theorem fl_03_nonneg : 0 ≤ fl (3/10 : ℚ) := fl_nonneg (by norm_num)

theorem fl_100_fl03 : fl ((100 : ℚ) * fl (3/10)) = 30 := by
  rw [fl_03_eval]
  have hq : (100 : ℚ) * (((5404319552844595 : ℤ) : ℚ) * zpow2 ((-2 : ℤ) - 52))
      = ((540431955284459500 : ℤ) : ℚ) * zpow2 ((-2 : ℤ) - 52) := by
    push_cast
    ring
  rw [hq]
  have h1 : zpow2 (4 : ℤ) ≤ ((540431955284459500 : ℤ) : ℚ) * zpow2 ((-2 : ℤ) - 52) := by
    rw [show zpow2 (4 : ℤ) = ((2 ^ 4 : ℕ) : ℚ) from zpow2_eval 4,
      show zpow2 ((-2 : ℤ) - 52) = 1 / ((2 ^ 54 : ℕ) : ℚ) from zpow2_neg_val 54 (by norm_num)]
    push_cast
    norm_num
  have h2 : ((540431955284459500 : ℤ) : ℚ) * zpow2 ((-2 : ℤ) - 52) < zpow2 ((4 : ℤ) + 1) := by
    rw [show zpow2 ((4 : ℤ) + 1) = ((2 ^ 5 : ℕ) : ℚ) from zpow2_eval 5,
      show zpow2 ((-2 : ℤ) - 52) = 1 / ((2 ^ 54 : ℕ) : ℚ) from zpow2_neg_val 54 (by norm_num)]
    push_cast
    norm_num
  have hm : roundTiesEven ((((540431955284459500 : ℤ) : ℚ) * zpow2 ((-2 : ℤ) - 52))
      * zpow2 (52 - (4 : ℤ))) = 8444249301319680 := by
    have hcomb : (((540431955284459500 : ℤ) : ℚ) * zpow2 ((-2 : ℤ) - 52))
        * zpow2 (52 - (4 : ℤ))
        = ((540431955284459500 : ℤ) : ℚ) * zpow2 (-(6 : ℤ)) := by
      rw [mul_assoc, ← zpow2_add]
      norm_num
    rw [hcomb,
      show zpow2 (-(6 : ℤ)) = 1 / ((2 ^ 6 : ℕ) : ℚ) from zpow2_neg_val 6 (by norm_num)]
    refine (roundTiesEven_eq_high (f := 8444249301319679) ?_ ?_).trans (by norm_num)
    · push_cast
      norm_num
    · push_cast
      norm_num
  have h := fl_eval h1 h2 hm
  rw [h,
    show zpow2 ((4 : ℤ) - 52) = 1 / ((2 ^ 48 : ℕ) : ℚ) from zpow2_neg_val 48 (by norm_num)]
  push_cast
  norm_num

theorem incr_delay_x_zero : incr_delay_x 0 = fl (3/10) := by
  unfold incr_delay_x
  rw [show ((0 : ℕ) : ℚ) = 0 by norm_num, fl_zero,
    show (0 : ℚ) / (INCREMENTAL_LIMIT : ℚ) = 0 by norm_num, fl_zero,
    min_eq_right (by norm_num : (0:ℚ) ≤ 1), max_eq_left fl_03_nonneg]

theorem incr_delay_func_zero : incr_delay_func 0 = 30 := by
  unfold incr_delay_func
  rw [incr_delay_x_zero,
    show ((MAX_DELAY_UPDATE_INDEX : ℕ) : ℚ) = 100 by norm_num [MAX_DELAY_UPDATE_INDEX],
    fl_100_fl03]
  norm_num

theorem incr_delay_func_500 : incr_delay_func 500 = 100 := by
  unfold incr_delay_func incr_delay_x
  have hfc : fl ((500 : ℕ) : ℚ) = ((500 : ℕ) : ℚ) := by
    apply fl_natCast_eq (by norm_num)
    rw [show zpow2 (53 : ℤ) = ((2 ^ 53 : ℕ) : ℚ) from zpow2_eval 53]
    norm_num
  rw [hfc, show (((500 : ℕ) : ℚ)) / (INCREMENTAL_LIMIT : ℚ) = 1 by
    norm_num [INCREMENTAL_LIMIT], fl_one, min_self,
    max_eq_right fl_03_le_one,
    show ((MAX_DELAY_UPDATE_INDEX : ℕ) : ℚ) = 100 by norm_num [MAX_DELAY_UPDATE_INDEX],
    mul_one, fl_hundred]
  norm_num

theorem fl_57_100_eval : fl (57/100 : ℚ)
    = ((5134103575202365 : ℤ) : ℚ) * zpow2 ((-1 : ℤ) - 52) := by
  apply fl_eval (E := -1) (m := 5134103575202365)
  · rw [show zpow2 (-1 : ℤ) = 1 / ((2 ^ 1 : ℕ) : ℚ) from zpow2_neg_val 1 (by norm_num)]
    norm_num
  · rw [show zpow2 ((-1 : ℤ) + 1) = ((2 ^ 0 : ℕ) : ℚ) from zpow2_eval 0]
    norm_num
  · rw [show zpow2 (52 - (-1 : ℤ)) = ((2 ^ 53 : ℕ) : ℚ) from zpow2_eval 53]
    apply roundTiesEven_eq_low
    · push_cast
      norm_num
    · push_cast
      norm_num

theorem incr_delay_func_285 : incr_delay_func 285 = 56 := by
  unfold incr_delay_func incr_delay_x
  have hfc : fl ((285 : ℕ) : ℚ) = ((285 : ℕ) : ℚ) := by
    apply fl_natCast_eq (by norm_num)
    rw [show zpow2 (53 : ℤ) = ((2 ^ 53 : ℕ) : ℚ) from zpow2_eval 53]
    norm_num
  have hdiv : (((285 : ℕ) : ℚ)) / (INCREMENTAL_LIMIT : ℚ) = 57/100 := by
    norm_num [INCREMENTAL_LIMIT]
  rw [hfc, hdiv, fl_57_100_eval]
  have hlt1 : ((5134103575202365 : ℤ) : ℚ) * zpow2 ((-1 : ℤ) - 52) ≤ 1 := by
    rw [show zpow2 ((-1 : ℤ) - 52) = 1 / ((2 ^ 53 : ℕ) : ℚ) from
      zpow2_neg_val 53 (by norm_num)]
    push_cast
    norm_num
  have hge03 : fl (3/10) ≤ ((5134103575202365 : ℤ) : ℚ) * zpow2 ((-1 : ℤ) - 52) := by
    rw [fl_03_eval,
      show zpow2 ((-1 : ℤ) - 52) = 1 / ((2 ^ 53 : ℕ) : ℚ) from
        zpow2_neg_val 53 (by norm_num),
      show zpow2 ((-2 : ℤ) - 52) = 1 / ((2 ^ 54 : ℕ) : ℚ) from
        zpow2_neg_val 54 (by norm_num)]
    push_cast
    norm_num
  rw [min_eq_right hlt1, max_eq_right hge03,
    show ((MAX_DELAY_UPDATE_INDEX : ℕ) : ℚ) = 100 by norm_num [MAX_DELAY_UPDATE_INDEX]]
  have hq : (100 : ℚ) * (((5134103575202365 : ℤ) : ℚ) * zpow2 ((-1 : ℤ) - 52))
      = ((513410357520236500 : ℤ) : ℚ) * zpow2 ((-1 : ℤ) - 52) := by
    push_cast
    ring
  rw [hq]
  have h1 : zpow2 (5 : ℤ) ≤ ((513410357520236500 : ℤ) : ℚ) * zpow2 ((-1 : ℤ) - 52) := by
    rw [show zpow2 (5 : ℤ) = ((2 ^ 5 : ℕ) : ℚ) from zpow2_eval 5,
      show zpow2 ((-1 : ℤ) - 52) = 1 / ((2 ^ 53 : ℕ) : ℚ) from
        zpow2_neg_val 53 (by norm_num)]
    push_cast
    norm_num
  have h2 : ((513410357520236500 : ℤ) : ℚ) * zpow2 ((-1 : ℤ) - 52) < zpow2 ((5 : ℤ) + 1) := by
    rw [show zpow2 ((5 : ℤ) + 1) = ((2 ^ 6 : ℕ) : ℚ) from zpow2_eval 6,
      show zpow2 ((-1 : ℤ) - 52) = 1 / ((2 ^ 53 : ℕ) : ℚ) from
        zpow2_neg_val 53 (by norm_num)]
    push_cast
    norm_num
  have hm : roundTiesEven ((((513410357520236500 : ℤ) : ℚ) * zpow2 ((-1 : ℤ) - 52))
      * zpow2 (52 - (5 : ℤ))) = 8022036836253695 := by
    have hcomb : (((513410357520236500 : ℤ) : ℚ) * zpow2 ((-1 : ℤ) - 52))
        * zpow2 (52 - (5 : ℤ))
        = ((513410357520236500 : ℤ) : ℚ) * zpow2 (-(6 : ℤ)) := by
      rw [mul_assoc, ← zpow2_add]
      norm_num
    rw [hcomb,
      show zpow2 (-(6 : ℤ)) = 1 / ((2 ^ 6 : ℕ) : ℚ) from zpow2_neg_val 6 (by norm_num)]
    apply roundTiesEven_eq_low
    · push_cast
      norm_num
    · push_cast
      norm_num
  rw [fl_eval h1 h2 hm,
    show zpow2 ((5 : ℤ) - 52) = 1 / ((2 ^ 47 : ℕ) : ℚ) from zpow2_neg_val 47 (by norm_num)]
  apply Int.floor_eq_iff.2
  constructor
  · push_cast
    norm_num
  · push_cast
    norm_num

theorem incr_delay_exact_285 : incr_delay_exact 285 = 57 := by
  unfold incr_delay_exact
  rw [show (((285 : ℕ) : ℚ)) / (INCREMENTAL_LIMIT : ℚ) = 57/100 by
      norm_num [INCREMENTAL_LIMIT],
    min_eq_right (by norm_num : (57/100 : ℚ) ≤ 1),
    max_eq_right (by norm_num : (3/10 : ℚ) ≤ 57/100),
    show ((MAX_DELAY_UPDATE_INDEX : ℕ) : ℚ) = 100 by norm_num [MAX_DELAY_UPDATE_INDEX]]
  norm_num

theorem fl_natCast_ge_500 {c : ℕ} (h : 500 ≤ c) : (500 : ℚ) ≤ fl ((c : ℕ) : ℚ) := by
  rcases lt_or_le c (2 ^ 53) with hsmall | hbig
  · have hfc : fl ((c : ℕ) : ℚ) = ((c : ℕ) : ℚ) := by
      apply fl_natCast_eq (by omega)
      rw [show zpow2 (53 : ℤ) = ((2 ^ 53 : ℕ) : ℚ) from zpow2_eval 53]
      exact_mod_cast hsmall
    rw [hfc]
    exact_mod_cast h
  · have h53 : zpow2 53 ≤ ((c : ℕ) : ℚ) := by
      rw [show zpow2 (53 : ℤ) = ((2 ^ 53 : ℕ) : ℚ) from zpow2_eval 53]
      exact_mod_cast hbig
    have := fl_ge_zpow2 h53
    rw [show zpow2 (53 : ℤ) = ((2 ^ 53 : ℕ) : ℚ) from zpow2_eval 53] at this
    have h2 : (500 : ℚ) ≤ ((2 ^ 53 : ℕ) : ℚ) := by norm_num
    linarith

theorem incr_delay_x_of_ge {c : ℕ} (h : 500 ≤ c) : incr_delay_x c = 1 := by
  unfold incr_delay_x
  have hL : ((INCREMENTAL_LIMIT : ℕ) : ℚ) = 500 := by norm_num [INCREMENTAL_LIMIT]
  rw [hL]
  have h1 : (1 : ℚ) ≤ fl ((c : ℕ) : ℚ) / 500 := by
    rw [le_div_iff₀ (by norm_num : (0:ℚ) < 500)]
    have := fl_natCast_ge_500 h
    linarith
  have h2 : (1 : ℚ) ≤ fl (fl ((c : ℕ) : ℚ) / 500) := fl_ge_one h1
  rw [min_eq_left h2, max_eq_right fl_03_le_one]

theorem incr_delay_func_of_ge {c : ℕ} (h : 500 ≤ c) : incr_delay_func c = 100 := by
  unfold incr_delay_func
  rw [incr_delay_x_of_ge h,
    show ((MAX_DELAY_UPDATE_INDEX : ℕ) : ℚ) = 100 by norm_num [MAX_DELAY_UPDATE_INDEX],
    mul_one, fl_hundred]
  norm_num

theorem incr_delay_exact_of_ge {c : ℕ} (h : 500 ≤ c) : incr_delay_exact c = 100 := by
  unfold incr_delay_exact
  have hL : ((INCREMENTAL_LIMIT : ℕ) : ℚ) = 500 := by norm_num [INCREMENTAL_LIMIT]
  rw [hL]
  have h1 : (1 : ℚ) ≤ ((c : ℕ) : ℚ) / 500 := by
    rw [le_div_iff₀ (by norm_num : (0:ℚ) < 500)]
    have : (500 : ℚ) ≤ ((c : ℕ) : ℚ) := by exact_mod_cast h
    linarith
  rw [min_eq_left h1, max_eq_right (by norm_num : (3/10 : ℚ) ≤ 1),
    show ((MAX_DELAY_UPDATE_INDEX : ℕ) : ℚ) = 100 by norm_num [MAX_DELAY_UPDATE_INDEX],
    mul_one]
  norm_num

theorem incr_delay_x_le_one (c : ℕ) : incr_delay_x c ≤ 1 :=
  max_le fl_03_le_one (min_le_left _ _)

theorem incr_delay_x_nonneg (c : ℕ) : 0 ≤ incr_delay_x c :=
  le_trans fl_03_nonneg (le_max_left _ _)

theorem incr_delay_func_lb (c : ℕ) : 30 ≤ incr_delay_func c := by
  unfold incr_delay_func
  rw [show ((MAX_DELAY_UPDATE_INDEX : ℕ) : ℚ) = 100 by norm_num [MAX_DELAY_UPDATE_INDEX]]
  have h1 : (100 : ℚ) * fl (3/10) ≤ 100 * incr_delay_x c :=
    mul_le_mul_of_nonneg_left (le_max_left _ _) (by norm_num)
  have h2 : fl ((100 : ℚ) * fl (3/10)) ≤ fl (100 * incr_delay_x c) :=
    fl_mono (by nlinarith [fl_03_nonneg]) h1
  rw [fl_100_fl03] at h2
  exact Int.le_floor.2 (by exact_mod_cast h2)

theorem incr_delay_func_ub (c : ℕ) : incr_delay_func c ≤ 100 := by
  unfold incr_delay_func
  rw [show ((MAX_DELAY_UPDATE_INDEX : ℕ) : ℚ) = 100 by norm_num [MAX_DELAY_UPDATE_INDEX]]
  have h1 : (100 : ℚ) * incr_delay_x c ≤ 100 :=
    le_trans (mul_le_mul_of_nonneg_left (incr_delay_x_le_one c) (by norm_num))
      (by norm_num)
  have h2 : fl ((100 : ℚ) * incr_delay_x c) ≤ 100 := by
    have := fl_mono (by nlinarith [incr_delay_x_nonneg c]) h1
    rw [fl_hundred] at this
    exact this
  have h3 : (Int.floor (fl ((100 : ℚ) * incr_delay_x c)) : ℚ)
      ≤ fl ((100 : ℚ) * incr_delay_x c) := Int.floor_le _
  have : (Int.floor (fl ((100 : ℚ) * incr_delay_x c)) : ℚ) ≤ 100 := by linarith
  exact_mod_cast this

theorem incr_delay_x_mono {c1 c2 : ℕ} (h : c1 ≤ c2) :
    incr_delay_x c1 ≤ incr_delay_x c2 := by
  unfold incr_delay_x
  have hc : ((c1 : ℕ) : ℚ) ≤ ((c2 : ℕ) : ℚ) := by exact_mod_cast h
  have h1 : fl ((c1 : ℕ) : ℚ) ≤ fl ((c2 : ℕ) : ℚ) := fl_mono (Nat.cast_nonneg c1) hc
  have hL : (0 : ℚ) < ((INCREMENTAL_LIMIT : ℕ) : ℚ) := by norm_num [INCREMENTAL_LIMIT]
  have h2 : fl ((c1 : ℕ) : ℚ) / ((INCREMENTAL_LIMIT : ℕ) : ℚ)
      ≤ fl ((c2 : ℕ) : ℚ) / ((INCREMENTAL_LIMIT : ℕ) : ℚ) := by
    rw [div_eq_mul_inv, div_eq_mul_inv]
    exact mul_le_mul_of_nonneg_right h1 (by positivity)
  have h3 : fl (fl ((c1 : ℕ) : ℚ) / ((INCREMENTAL_LIMIT : ℕ) : ℚ))
      ≤ fl (fl ((c2 : ℕ) : ℚ) / ((INCREMENTAL_LIMIT : ℕ) : ℚ)) :=
    fl_mono (div_nonneg (fl_nonneg (Nat.cast_nonneg c1)) hL.le) h2
  exact max_le_max (le_refl _) (min_le_min (le_refl _) h3)

theorem incr_delay_func_mono {c1 c2 : ℕ} (h : c1 ≤ c2) :
    incr_delay_func c1 ≤ incr_delay_func c2 := by
  unfold incr_delay_func
  have h1 : ((MAX_DELAY_UPDATE_INDEX : ℕ) : ℚ) * incr_delay_x c1
      ≤ ((MAX_DELAY_UPDATE_INDEX : ℕ) : ℚ) * incr_delay_x c2 :=
    mul_le_mul_of_nonneg_left (incr_delay_x_mono h) (Nat.cast_nonneg _)
  have h2 : fl (((MAX_DELAY_UPDATE_INDEX : ℕ) : ℚ) * incr_delay_x c1)
      ≤ fl (((MAX_DELAY_UPDATE_INDEX : ℕ) : ℚ) * incr_delay_x c2) :=
    fl_mono (mul_nonneg (Nat.cast_nonneg _) (incr_delay_x_nonneg c1)) h1
  exact Int.floor_le_floor h2

theorem abs_min_sub_min (a b c : ℚ) : |min a b - min a c| ≤ |b - c| := by
  have hbc1 : b - c ≤ |b - c| := le_abs_self _
  have hbc2 : -|b - c| ≤ b - c := neg_abs_le _
  have h0 : (0:ℚ) ≤ |b - c| := abs_nonneg _
  rcases le_total a b with h1 | h1 <;> rcases le_total a c with h2 | h2
  · rw [min_eq_left h1, min_eq_left h2, abs_le]
    constructor <;> linarith
  · rw [min_eq_left h1, min_eq_right h2, abs_le]
    constructor <;> linarith
  · rw [min_eq_right h1, min_eq_left h2, abs_le]
    constructor <;> linarith
  · rw [min_eq_right h1, min_eq_right h2, abs_le]
    constructor <;> linarith

theorem abs_max_sub_max (a b c : ℚ) : |max a b - max a c| ≤ |b - c| := by
  have hbc1 : b - c ≤ |b - c| := le_abs_self _
  have hbc2 : -|b - c| ≤ b - c := neg_abs_le _
  have h0 : (0:ℚ) ≤ |b - c| := abs_nonneg _
  rcases le_total a b with h1 | h1 <;> rcases le_total a c with h2 | h2
  · rw [max_eq_right h1, max_eq_right h2]
  · rw [max_eq_right h1, max_eq_left h2, abs_le]
    constructor <;> linarith
  · rw [max_eq_left h1, max_eq_right h2, abs_le]
    constructor <;> linarith
  · rw [max_eq_left h1, max_eq_left h2, abs_le]
    constructor <;> linarith

theorem abs_max_sub_max_arg (a b c : ℚ) : |max a c - max b c| ≤ |a - b| := by
  rw [max_comm a c, max_comm b c]
  exact abs_max_sub_max c a b

/-- The binary64 evaluation of the delay formula never strays more than one
delay unit from the exact integer part of the formula. -/
theorem incr_delay_func_close (c : ℕ) :
    incr_delay_exact c - 1 ≤ incr_delay_func c
    ∧ incr_delay_func c ≤ incr_delay_exact c + 1 := by
  rcases le_or_lt 500 c with hc | hc
  · rw [incr_delay_func_of_ge hc, incr_delay_exact_of_ge hc]
    omega
  have hL : ((INCREMENTAL_LIMIT : ℕ) : ℚ) = 500 := by norm_num [INCREMENTAL_LIMIT]
  have hM : ((MAX_DELAY_UPDATE_INDEX : ℕ) : ℚ) = 100 := by norm_num [MAX_DELAY_UPDATE_INDEX]
  have hε : zpow2 (-53 : ℤ) ≤ 1/1000000 := by
    rw [show zpow2 (-53 : ℤ) = 1 / ((2 ^ 53 : ℕ) : ℚ) from zpow2_neg_val 53 (by norm_num)]
    push_cast
    norm_num
  have hεpos : (0:ℚ) < zpow2 (-53 : ℤ) := zpow2_pos _
  have hcnn : (0:ℚ) ≤ ((c : ℕ) : ℚ) := Nat.cast_nonneg c
  have hcub : ((c : ℕ) : ℚ) ≤ 500 := by exact_mod_cast hc.le
  unfold incr_delay_func incr_delay_x incr_delay_exact
  rw [hL, hM]
  -- step 1: float(c)
  have h1 := abs_le.1 (fl_err_rel hcnn)
  have hy1nn : 0 ≤ fl ((c : ℕ) : ℚ) := fl_nonneg hcnn
  have hce : ((c : ℕ) : ℚ) * zpow2 (-53) ≤ 500 * zpow2 (-53) := by
    nlinarith [mul_nonneg (by linarith : (0:ℚ) ≤ 500 - ((c : ℕ) : ℚ)) hεpos.le]
  -- step 2: the division by 500
  have hBdiff : fl ((c : ℕ) : ℚ) / 500 - ((c : ℕ) : ℚ) / 500
      = (fl ((c : ℕ) : ℚ) - ((c : ℕ) : ℚ)) / 500 := by ring
  have hBu : fl ((c : ℕ) : ℚ) / 500 - ((c : ℕ) : ℚ) / 500 ≤ zpow2 (-53) := by
    rw [hBdiff]
    rw [div_le_iff₀ (by norm_num : (0:ℚ) < 500)]
    nlinarith [h1.2, hce, hεpos.le]
  have hBl : -(zpow2 (-53)) ≤ fl ((c : ℕ) : ℚ) / 500 - ((c : ℕ) : ℚ) / 500 := by
    rw [hBdiff]
    rw [le_div_iff₀ (by norm_num : (0:ℚ) < 500)]
    nlinarith [h1.1, hce, hεpos.le]
  have hBnn : 0 ≤ fl ((c : ℕ) : ℚ) / 500 := div_nonneg hy1nn (by norm_num)
  have hB'ub : ((c : ℕ) : ℚ) / 500 ≤ 1 := by linarith
  have hB'nn : 0 ≤ ((c : ℕ) : ℚ) / 500 := div_nonneg hcnn (by norm_num)
  have hBub : fl ((c : ℕ) : ℚ) / 500 ≤ 2 := by linarith
  -- step 3: the second rounding
  have h3 := abs_le.1 (fl_err_rel hBnn)
  have hBe : fl ((c : ℕ) : ℚ) / 500 * zpow2 (-53) ≤ 2 * zpow2 (-53) :=
    mul_le_mul_of_nonneg_right hBub hεpos.le
  have hy3u : fl (fl ((c : ℕ) : ℚ) / 500) - ((c : ℕ) : ℚ) / 500 ≤ 3 * zpow2 (-53) := by
    linarith [h3.2]
  have hy3l : -(3 * zpow2 (-53)) ≤ fl (fl ((c : ℕ) : ℚ) / 500) - ((c : ℕ) : ℚ) / 500 := by
    linarith [h3.1, hBe, hBl]
  -- step 4: min with 1
  have hmin := abs_le.1 (abs_min_sub_min 1 (fl (fl ((c : ℕ) : ℚ) / 500)) (((c : ℕ) : ℚ) / 500))
  have hminabs : |fl (fl ((c : ℕ) : ℚ) / 500) - ((c : ℕ) : ℚ) / 500| ≤ 3 * zpow2 (-53) := by
    rw [abs_le]
    exact ⟨hy3l, hy3u⟩
  have hmin2 : |min 1 (fl (fl ((c : ℕ) : ℚ) / 500)) - min 1 (((c : ℕ) : ℚ) / 500)|
      ≤ 3 * zpow2 (-53) :=
    le_trans (abs_min_sub_min 1 _ _) hminabs
  have hmin3 := abs_le.1 hmin2
  -- step 5: max with the 0.3 literal
  have h03 := abs_le.1 (fl_err_rel (by norm_num : (0:ℚ) ≤ 3/10))
  have h03abs : |fl (3/10) - 3/10| ≤ zpow2 (-53) := by
    rw [abs_le]
    constructor <;> linarith [h03.1, h03.2, hεpos.le]
  have hmax1 : |max (fl (3/10)) (min 1 (fl (fl ((c : ℕ) : ℚ) / 500)))
      - max (fl (3/10)) (min 1 (((c : ℕ) : ℚ) / 500))| ≤ 3 * zpow2 (-53) :=
    le_trans (abs_max_sub_max (fl (3/10)) _ _) hmin2
  have hmax2 : |max (fl (3/10)) (min 1 (((c : ℕ) : ℚ) / 500))
      - max (3/10) (min 1 (((c : ℕ) : ℚ) / 500))| ≤ zpow2 (-53) :=
    le_trans (abs_max_sub_max_arg _ _ _) h03abs
  have hmax1' := abs_le.1 hmax1
  have hmax2' := abs_le.1 hmax2
  -- step 6: multiply by 100
  have hXub : max (fl (3/10)) (min 1 (fl (fl ((c : ℕ) : ℚ) / 500))) ≤ 1 :=
    max_le fl_03_le_one (min_le_left _ _)
  have hXnn : 0 ≤ max (fl (3/10)) (min 1 (fl (fl ((c : ℕ) : ℚ) / 500))) :=
    le_trans fl_03_nonneg (le_max_left _ _)
  have hunn : (0:ℚ) ≤ 100 * max (fl (3/10)) (min 1 (fl (fl ((c : ℕ) : ℚ) / 500))) := by
    linarith [hXnn]
  have huub : 100 * max (fl (3/10)) (min 1 (fl (fl ((c : ℕ) : ℚ) / 500))) ≤ 100 := by
    linarith [hXub]
  -- step 7: the final rounding
  have h7 := abs_le.1 (fl_err_rel hunn)
  have hue : 100 * max (fl (3/10)) (min 1 (fl (fl ((c : ℕ) : ℚ) / 500))) * zpow2 (-53)
      ≤ 100 * zpow2 (-53) := mul_le_mul_of_nonneg_right huub hεpos.le
  -- total two-sided bound between the float value and the exact value
  have htotu : fl (100 * max (fl (3/10)) (min 1 (fl (fl ((c : ℕ) : ℚ) / 500))))
      - 100 * max (3/10) (min 1 (((c : ℕ) : ℚ) / 500)) ≤ 1/1000 := by
    linarith [h7.2, hue, hmax1'.2, hmax2'.2, hε, hεpos.le]
  have htotl : -(1/1000 : ℚ) ≤ fl (100 * max (fl (3/10)) (min 1 (fl (fl ((c : ℕ) : ℚ) / 500))))
      - 100 * max (3/10) (min 1 (((c : ℕ) : ℚ) / 500)) := by
    linarith [h7.1, hue, hmax1'.1, hmax2'.1, hε, hεpos.le]
  -- floors of two values within 1/1000 of each other differ by at most one
  have hfa1 := Int.floor_le (fl (100 * max (fl (3/10)) (min 1 (fl (fl ((c : ℕ) : ℚ) / 500)))))
  have hfa2 := Int.lt_floor_add_one
    (fl (100 * max (fl (3/10)) (min 1 (fl (fl ((c : ℕ) : ℚ) / 500)))))
  have hfb1 := Int.floor_le (100 * max (3/10 : ℚ) (min 1 (((c : ℕ) : ℚ) / 500)))
  have hfb2 := Int.lt_floor_add_one (100 * max (3/10 : ℚ) (min 1 (((c : ℕ) : ℚ) / 500)))
  constructor
  · by_contra hcon
    push_neg at hcon
    have hstep : Int.floor (fl (100 * max (fl (3/10)) (min 1 (fl (fl ((c : ℕ) : ℚ) / 500))))) + 2
        ≤ Int.floor (100 * max (3/10 : ℚ) (min 1 (((c : ℕ) : ℚ) / 500))) := by omega
    have hq : ((Int.floor (fl (100 * max (fl (3/10)) (min 1 (fl (fl ((c : ℕ) : ℚ) / 500))))) : ℚ) + 2)
        ≤ (Int.floor (100 * max (3/10 : ℚ) (min 1 (((c : ℕ) : ℚ) / 500))) : ℚ) := by
      exact_mod_cast hstep
    linarith
  · by_contra hcon
    push_neg at hcon
    have hstep : Int.floor (100 * max (3/10 : ℚ) (min 1 (((c : ℕ) : ℚ) / 500))) + 2
        ≤ Int.floor (fl (100 * max (fl (3/10)) (min 1 (fl (fl ((c : ℕ) : ℚ) / 500))))) := by omega
    have hq : ((Int.floor (100 * max (3/10 : ℚ) (min 1 (((c : ℕ) : ℚ) / 500))) : ℚ) + 2)
        ≤ (Int.floor (fl (100 * max (fl (3/10)) (min 1 (fl (fl ((c : ℕ) : ℚ) / 500))))) : ℚ) := by
      exact_mod_cast hstep
    linarith

/--
**C2 counterexample.** At count 285 the code returns
`int(100 * max(0.3, min(1, 285/500.0))) = 56` (binary64 arithmetic rounds
`285/500` and `100 * 0.57…` down), while the integer part of the exact value
`100 * 0.57 = 57` is `57`; so the computed delay does not equal the integer
part of the claimed formula.  Moreover the delay at count 500 is 100 and at
count 0 it is 30, so the delay is *not* non-decreasing as the count
decreases toward 0 — it decreases.
-/
theorem C2_delay_counterexample :
    incr_delay_func 285 ≠ incr_delay_exact 285
    ∧ ¬ (incr_delay_func 500 ≤ incr_delay_func 0) := by
  constructor
  · rw [incr_delay_func_285, incr_delay_exact_285]
    decide
  · rw [incr_delay_func_500, incr_delay_func_zero]
    decide

/--
**C2 (amended).** For every incremental result count, the adaptive commit
delay equals the binary64 evaluation of
`base_delay * max(0.3, min(1, count / incremental_cap))` (with
`base_delay = 100`, `incremental_cap = 500`), which stays within one unit of
the integer part of the exact formula; the delay always lies in
`[0.3*base_delay, base_delay] = [30, 100]` inclusive; and it is monotonically
non-decreasing as the count *increases* (equivalently, non-increasing as the
count decreases toward 0).
-/
theorem C2_delay_amended (c1 c2 : ℕ) (h : c1 ≤ c2) :
    (30 ≤ incr_delay_func c1 ∧ incr_delay_func c1 ≤ 100)
    ∧ incr_delay_func c1 ≤ incr_delay_func c2
    ∧ incr_delay_exact c1 - 1 ≤ incr_delay_func c1
    ∧ incr_delay_func c1 ≤ incr_delay_exact c1 + 1 :=
  ⟨⟨incr_delay_func_lb c1, incr_delay_func_ub c1⟩, incr_delay_func_mono h,
    (incr_delay_func_close c1).1, (incr_delay_func_close c1).2⟩

/-- Witness for the amended C2 at the concrete pair `(0, 500)`. -/
theorem C2_delay_amended_witness :
    (30 ≤ incr_delay_func 0 ∧ incr_delay_func 0 ≤ 100)
    ∧ incr_delay_func 0 ≤ incr_delay_func 500
    ∧ incr_delay_exact 0 - 1 ≤ incr_delay_func 0
    ∧ incr_delay_func 0 ≤ incr_delay_exact 0 + 1 :=
  C2_delay_amended 0 500 (by norm_num)

/-! ## The instant-search controller -/

/-- Failure modes of the incremental index backend.

Modelled from the spec: the incremental index module itself is not under
the sources verified here (only its caller `main.py` is); per the external
interface contract its `search` raises `NotBuilt`/`Corrupt`, which the
caller catches as `(EnvironmentError, incremental.IndexError)`
(main.py line 508). -/
inductive IncrFailure where
  | backendUnavailable
  | backendCorrupt
deriving DecidableEq

/-- The state of `self._incremental` together with the outcome the backend
would produce for the current key: `none` embeds a missing (falsy) lazy
object, `some (Except.error e)` a raising backend, `some (Except.ok items)`
a successful lookup. -/
def IncrBackend : Type := Option (Except IncrFailure (List Item))

/-- `_incremental_search` (main.py lines 502-509):

```text
def _incremental_search(self, key):
    if not self._incremental:
        return None
    else:
        try:
            return self._incremental.search(key, limit=_INCREMENTAL_LIMIT)
        except (EnvironmentError, incremental.IndexError):
            return None
```
-/
def incremental_search : IncrBackend → Option (List Item)
  | none => none
  | some (Except.error _) => none
  | some (Except.ok items) => some items

/-- `any(c in query for c in "*?")` (main.py line 450). -/
def containsWild (query : String) : Bool :=
  query.toList.any (fun c => c = '*' || c = '?')

/-- The observable outcome of one `_instantSearch` call (main.py 432-470):
which client call was made, which timers were started (with their delays),
and the new search state.  A `none` timer field means the timer was not
started by the call (every timer was stopped at entry); `auto_fts_phrase`
is the value assigned during the call, `none` when the call leaves it
untouched. -/
structure InstantOutcome where
  incrCalled : Bool
  incr_results : Option (List Item)
  fts_results : Option (List Item)
  auto_fts_phrase : Option String
  timerAutoFTS : Option ℕ
  timerUpdateIndex : Option ℤ
  timerSpellCorrection : Option ℕ
  advisory : Bool
  selection_pending : Bool
  loading_pending : Bool
deriving DecidableEq

/-- `_instantSearch(pending, delay)` (main.py lines 432-470):

```text
query = self._ui.lineEditSearch.text()
self._selection_pending = pending
self._loading_pending = pending
... cancel async fts; stop timers ...
self._incr_results = None
self._fts_results = None
if query:
    contains_wild = any(c in query for c in "*?")
    if not contains_wild:
        results = self._incremental_search(query)
    else:
        results = []
    if results is not None:
        self._incr_results = tuple(results)
        self._auto_fts_phrase = query
        self._timerAutoFTS.start(0)
        self._timerUpdateIndex.start(
            _incr_delay_func(len(results)) if delay else 0)
    else:
        self._ui.webView.setHtml(...advisory...)
        self._timerUpdateIndex.start(0)
else:
    self._timerUpdateIndex.start(0)
```
-/
def instantSearch (query : String) (pending delayFlag : Bool)
    (backend : IncrBackend) : InstantOutcome :=
  if query.isEmpty then
    { incrCalled := false, incr_results := none, fts_results := none,
      auto_fts_phrase := none, timerAutoFTS := none,
      timerUpdateIndex := some 0, timerSpellCorrection := none,
      advisory := false, selection_pending := pending, loading_pending := pending }
  else
    let wild := containsWild query
    let found : Option (List Item) :=
      if wild then some [] else incremental_search backend
    match found with
    | some items =>
        { incrCalled := !wild, incr_results := some items, fts_results := none,
          auto_fts_phrase := some query, timerAutoFTS := some 0,
          timerUpdateIndex := some (if delayFlag then incr_delay_func items.length else 0),
          timerSpellCorrection := none, advisory := false,
          selection_pending := pending, loading_pending := pending }
    | none =>
        { incrCalled := true, incr_results := none, fts_results := none,
          auto_fts_phrase := none, timerAutoFTS := none,
          timerUpdateIndex := some 0, timerSpellCorrection := none,
          advisory := true, selection_pending := pending, loading_pending := pending }

/-- Arguments of an `AsyncFTSearcher.update_query` call. -/
structure FtsQuery where
  query_str1 : String
  query_str2 : Option String
  itemtypes : List String
  limit : Option ℕ
  merge : Bool
deriving DecidableEq

/-- `_onTimerAutoFullSearchTimeout` (main.py lines 472-485):

```text
query = self._auto_fts_phrase
if self._fts_hwdphr_async:
    if any(c in query for c in "?*"):
        itemtypes = ("hm",)
    else:
        itemtypes = ()
    self._timerSearchingLabel.start(200)
    self._fts_hwdphr_async.update_query(
        query_str1=query, itemtypes=itemtypes,
        limit=_FTS_HWDPHR_LIMIT + 1, merge=True)
```
The result is the issued request, `none` when the async client is absent. -/
def onTimerAutoFullSearchTimeout (phrase : String) (ftsAvailable : Bool) :
    Option FtsQuery :=
  if ftsAvailable then
    some { query_str1 := phrase,
           query_str2 := none,
           itemtypes := if containsWild phrase then ["hm"] else [],
           limit := some (FTS_HWDPHR_LIMIT + 1),
           merge := true }
  else none

/-- Result state and commit-timer delay after `_onAsyncFTSearchFinished`. -/
structure FtsFinishOutcome where
  incr_results : Option (List Item)
  fts_results : Option (List Item)
  timerUpdateIndex : Option ℤ
deriving DecidableEq

/-- `_onAsyncFTSearchFinished` (main.py lines 511-522):

```text
r = self._fts_hwdphr_async.take_result()
if r is None:
    return
(merge, result) = r
if not merge:
    self._incr_results = None
self._fts_results = tuple(result)
self._timerUpdateIndex.start(0)
```
`take_result()` returns `None` when the request has been superseded or
cancelled; that late result is discarded without touching any state. -/
def onAsyncFTSearchFinished (takeResult : Option (Bool × List Item))
    (incr_prev fts_prev : Option (List Item)) : FtsFinishOutcome :=
  match takeResult with
  | none =>
      { incr_results := incr_prev, fts_results := fts_prev,
        timerUpdateIndex := none }
  | some (mg, result) =>
      { incr_results := if mg then incr_prev else none,
        fts_results := some result,
        timerUpdateIndex := some 0 }

/-- Python whitespace (the ASCII characters stripped/split by `str.strip()`
and `str.split()`). -/
def isPySpace (c : Char) : Bool :=
  c = ' ' || c = '\t' || c = '\n' || c = '\r' || c = '\x0b' || c = '\x0c'

/-- Python `s.strip()`. -/
def pyStrip (s : String) : String :=
  ⟨((s.toList.dropWhile isPySpace).reverse.dropWhile isPySpace).reverse⟩

/-- Python `s.split()`: split on whitespace runs, discarding empty parts. -/
def pySplitWS (s : String) : List String :=
  (s.split (fun c => isPySpace c)).filter (fun t => !t.isEmpty)

/-- The spell-correction trigger inside `_updateIndex` (main.py 294-305):

```text
query = self._ui.lineEditSearch.text().strip()
if (incr_res is not None and full_res is not None
        and len(incr_res) == 0 and len(full_res) == 0
        and len(query.split()) == 1):
    self._timerSpellCorrection.start(200)
```
The result is the delay the timer is started with, `none` when it is not
started. -/
def spellCorrectionTimer (incr_res full_res : Option (List Item))
    (rawText : String) : Option ℕ :=
  match incr_res, full_res with
  | some i, some f =>
      if i.length = 0 ∧ f.length = 0 ∧ (pySplitWS (pyStrip rawText)).length = 1
      then some 200 else none
  | _, _ => none

/-- The relative-move branch of `selectItemRelative` (main.py 403-407):

```text
row = max(0, min(len(self._found_items) - 1, row_prev + rel))
if row != row_prev:
    lw.setFocus()
    lw.setCurrentRow(row)
```
The result is the row passed to `setCurrentRow`, `none` when the selection
is left untouched. -/
def selectItemRelativeMove (lenItems : ℕ) (row_prev rel : ℤ) : Option ℤ :=
  let row := max 0 (min ((lenItems : ℤ) - 1) (row_prev + rel))
  if row ≠ row_prev then some row else none

/--
**C3 counterexample.** On the empty query the controller *does* schedule a
timer: `_timerUpdateIndex.start(0)` (main.py line 470) — the empty commit
itself runs through the zero-delay commit timer, so "no timers are
scheduled" is false as stated.
-/
theorem C3_empty_counterexample :
    (instantSearch "" false true none).timerUpdateIndex ≠ none := by
  decide

/--
**C3 (amended).** When the query text is empty, the search entry point skips
both the incremental and the full-text search — the incremental wrapper is
not invoked, no auto-full-text timer and no spell-correction timer are
scheduled, so no backend receives a call — and it commits an empty merged
list via the commit timer, which is the one timer scheduled, with zero
delay.
-/
theorem C3_empty_query_amended (pending delayFlag : Bool) (backend : IncrBackend) :
    (instantSearch "" pending delayFlag backend).incrCalled = false
    ∧ (instantSearch "" pending delayFlag backend).timerAutoFTS = none
    ∧ (instantSearch "" pending delayFlag backend).timerSpellCorrection = none
    ∧ (instantSearch "" pending delayFlag backend).timerUpdateIndex = some 0
    ∧ mergeResults (instantSearch "" pending delayFlag backend).incr_results
        (instantSearch "" pending delayFlag backend).fts_results = [] := by
  refine ⟨rfl, rfl, rfl, rfl, rfl⟩

/--
**C4.** For every query containing a wildcard marker (`*` or `?`), the
incremental search client is not called and the incremental result is set to
the empty tuple; the auto-full-text timer fires (delay 0) on this query, and
the resulting request to the full-text client restricts the item kinds to
headword/phrase matches `("hm",)` with merge mode enabled.
-/
theorem C4_wildcard_fulltext_only (query : String) (pending delayFlag : Bool)
    (backend : IncrBackend) (hwild : containsWild query = true) :
    (instantSearch query pending delayFlag backend).incrCalled = false
    ∧ (instantSearch query pending delayFlag backend).incr_results = some []
    ∧ (instantSearch query pending delayFlag backend).auto_fts_phrase = some query
    ∧ (instantSearch query pending delayFlag backend).timerAutoFTS = some 0
    ∧ onTimerAutoFullSearchTimeout query true
        = some ⟨query, none, ["hm"], some (FTS_HWDPHR_LIMIT + 1), true⟩ := by
  have hne : query.isEmpty = false := by
    cases hiq : query.isEmpty
    · rfl
    · exfalso
      rw [(String.isEmpty_iff query).1 hiq] at hwild
      exact absurd hwild (by decide)
  refine ⟨?_, ?_, ?_, ?_, ?_⟩ <;>
    simp [instantSearch, onTimerAutoFullSearchTimeout, hne, hwild]

/-- Witness for C4 at the concrete wildcard query `"examp*e"`. -/
theorem C4_wildcard_witness :
    (instantSearch "examp*e" false true none).incrCalled = false
    ∧ (instantSearch "examp*e" false true none).incr_results = some []
    ∧ (instantSearch "examp*e" false true none).auto_fts_phrase = some "examp*e"
    ∧ (instantSearch "examp*e" false true none).timerAutoFTS = some 0
    ∧ onTimerAutoFullSearchTimeout "examp*e" true
        = some ⟨"examp*e", none, ["hm"], some (FTS_HWDPHR_LIMIT + 1), true⟩ :=
  C4_wildcard_fulltext_only "examp*e" false true none (by decide)

/--
**C5 counterexample.** A non-superseded merge-mode full-text completion with
500 incremental results already stored schedules the commit timer with delay
0 (main.py line 522), not with the adaptive delay — which for 500
incremental results would be `_incr_delay_func(500) = 100`.  The commit
after full-text completion is immediate even outside the advanced-search
flow, so "a commit cycle runs after an adaptive delay … unless it is an
advanced-search flow" is false as stated.
-/
theorem C5_completion_counterexample :
    (onAsyncFTSearchFinished (some (true, []))
        (some (List.replicate 500 ⟨"t", "p", "s", 0⟩)) none).timerUpdateIndex = some 0
    ∧ incr_delay_func (List.replicate 500 (⟨"t", "p", "s", 0⟩ : Item)).length = 100
    ∧ (0 : ℤ) ≠ 100 := by
  refine ⟨rfl, ?_, by decide⟩
  rw [List.length_replicate]
  exact incr_delay_func_500

/--
**C5 (amended).** On full-text search completion: a superseded result
(`take_result()` returning `None`) is discarded without storing anything or
scheduling a commit; otherwise the results are stored (the incremental
results being discarded when merge mode is off, as in the advanced-search
flow) and a commit cycle is scheduled immediately — delay 0 — in every
flow.  The adaptive delay is applied earlier, when `_instantSearch`
schedules the commit of the incremental results.
-/
theorem C5_completion_amended (takeResult : Option (Bool × List Item))
    (incr_prev fts_prev : Option (List Item)) :
    (takeResult = none →
      onAsyncFTSearchFinished takeResult incr_prev fts_prev
        = ⟨incr_prev, fts_prev, none⟩)
    ∧ (∀ (mg : Bool) (result : List Item), takeResult = some (mg, result) →
        onAsyncFTSearchFinished takeResult incr_prev fts_prev
          = ⟨if mg then incr_prev else none, some result, some 0⟩) := by
  constructor
  · rintro rfl
    rfl
  · rintro mg result rfl
    rfl

/-- Witness for the amended C5: a concrete merge-mode completion stores the
full-text results, keeps the incremental ones and schedules a zero-delay
commit. -/
theorem C5_completion_amended_witness :
    onAsyncFTSearchFinished (some (true, [⟨"t", "p", "s", 0⟩])) (some []) none
      = ⟨if true then some [] else none, some [⟨"t", "p", "s", 0⟩], some 0⟩ :=
  (C5_completion_amended (some (true, [⟨"t", "p", "s", 0⟩])) (some []) none).2
    true [⟨"t", "p", "s", 0⟩] rfl

/--
**C6.** The spell-correction timer is started by a commit if and only if
both result sets are present and empty and the stripped query text is
exactly one whitespace-delimited token; whenever it is started, the delay is
the fixed 200 ms — never zero.
-/
theorem C6_spell_trigger (incr_res full_res : Option (List Item)) (rawText : String) :
    spellCorrectionTimer incr_res full_res rawText
      = if incr_res = some [] ∧ full_res = some []
            ∧ (pySplitWS (pyStrip rawText)).length = 1
        then some 200 else none := by
  rcases incr_res with _ | i <;> rcases full_res with _ | f
  · simp [spellCorrectionTimer]
  · simp [spellCorrectionTimer]
  · simp [spellCorrectionTimer]
  · simp only [spellCorrectionTimer]
    apply if_congr _ rfl rfl
    constructor
    · rintro ⟨hi, hf, ht⟩
      exact ⟨by rw [List.length_eq_zero.1 hi], by rw [List.length_eq_zero.1 hf], ht⟩
    · rintro ⟨hi, hf, ht⟩
      refine ⟨?_, ?_, ht⟩ <;> simp_all

/--
**C7.** For every query key, the incremental search wrapper returns `None` —
and, being a total function, never raises — when the backing index object is
missing or the lookup fails with the unavailable/corrupt errors (the only
failure modes of the backend contract); in the absent case the controller
shows the one-line advisory, still schedules the commit timer with zero
delay, and that commit merges the absent incremental side with whatever
full-text results exist into a (possibly empty) list rather than
terminating.
-/
theorem C7_incremental_absent (query : String) (pending delayFlag : Bool)
    (backend : IncrBackend)
    (hq : query.isEmpty = false) (hw : containsWild query = false)
    (habsent : incremental_search backend = none) :
    incremental_search (none : IncrBackend) = none
    ∧ (∀ e : IncrFailure, incremental_search (some (Except.error e)) = none)
    ∧ (instantSearch query pending delayFlag backend).advisory = true
    ∧ (instantSearch query pending delayFlag backend).timerUpdateIndex = some 0
    ∧ (instantSearch query pending delayFlag backend).incr_results = none
    ∧ (∀ fts : Option (List Item), mergeResults none fts = fts.getD []) := by
  refine ⟨rfl, fun e => rfl, ?_, ?_, ?_, fun fts => mergeResults_none_left fts⟩ <;>
    simp [instantSearch, hq, hw, habsent]

/-- Witness for C7 at the concrete query `"wierd"` with a missing backend. -/
theorem C7_incremental_absent_witness :
    incremental_search (none : IncrBackend) = none
    ∧ (∀ e : IncrFailure, incremental_search (some (Except.error e)) = none)
    ∧ (instantSearch "wierd" false true none).advisory = true
    ∧ (instantSearch "wierd" false true none).timerUpdateIndex = some 0
    ∧ (instantSearch "wierd" false true none).incr_results = none
    ∧ (∀ fts : Option (List Item), mergeResults none fts = fts.getD []) :=
  C7_incremental_absent "wierd" false true none (by decide) (by decide) rfl

/--
**C10.** With a non-empty found-items list and an existing selection at
`row_prev` (focus not on the query box), `selectItemRelative(rel)` computes
the row `max(0, min(len - 1, row_prev + rel))`, which lies within the
list's bounds for every `rel`; when the clamped row equals the previous row
the selection is left untouched, otherwise exactly that row is selected.
-/
theorem C10_select_relative_clamp (lenItems : ℕ) (row_prev rel : ℤ)
    (hlen : 1 ≤ lenItems) :
    (0 ≤ max 0 (min ((lenItems : ℤ) - 1) (row_prev + rel))
      ∧ max 0 (min ((lenItems : ℤ) - 1) (row_prev + rel)) < (lenItems : ℤ))
    ∧ selectItemRelativeMove lenItems row_prev rel
        = (if max 0 (min ((lenItems : ℤ) - 1) (row_prev + rel)) = row_prev
           then none
           else some (max 0 (min ((lenItems : ℤ) - 1) (row_prev + rel)))) := by
  have hl : (1:ℤ) ≤ (lenItems : ℤ) := by exact_mod_cast hlen
  refine ⟨⟨le_max_left _ _, ?_⟩, ?_⟩
  · have h1 : min ((lenItems : ℤ) - 1) (row_prev + rel) ≤ (lenItems : ℤ) - 1 :=
      min_le_left _ _
    have h2 : max 0 (min ((lenItems : ℤ) - 1) (row_prev + rel))
        ≤ max 0 ((lenItems : ℤ) - 1) := max_le_max (le_refl _) h1
    have h3 : max (0:ℤ) ((lenItems : ℤ) - 1) = (lenItems : ℤ) - 1 :=
      max_eq_right (by linarith)
    linarith
  · simp only [selectItemRelativeMove]
    by_cases h : max 0 (min ((lenItems : ℤ) - 1) (row_prev + rel)) = row_prev
    · rw [if_neg (fun hne => hne h), if_pos h]
    · rw [if_pos h, if_neg h]

/-- Witness for C10: a list of three items, selection at row 1, `rel = 5`
clamps to row 2. -/
theorem C10_select_relative_clamp_witness :
    (0 ≤ max 0 (min (((3 : ℕ) : ℤ) - 1) ((1 : ℤ) + 5))
      ∧ max 0 (min (((3 : ℕ) : ℤ) - 1) ((1 : ℤ) + 5)) < ((3 : ℕ) : ℤ))
    ∧ selectItemRelativeMove 3 1 5
        = (if max 0 (min (((3 : ℕ) : ℤ) - 1) ((1 : ℤ) + 5)) = 1 then none
           else some (max 0 (min (((3 : ℕ) : ℤ) - 1) ((1 : ℤ) + 5)))) :=
  C10_select_relative_clamp 3 1 5 (by norm_num)

/-! ## Selection logic -/

/-- First index satisfying `p`, scanning left to right — the shape of the
`for row in range(len(...))` / `for (row, sortkey) in enumerate(...)`
early-exit loops in `_updateIndex` and `selectItemRelative`. -/
def firstIdxP {α : Type} (p : α → Bool) : List α → Option ℕ
  | [] => none
  | x :: xs => if p x then some 0 else (firstIdxP p xs).map (· + 1)

theorem firstIdxP_none_iff {α : Type} (p : α → Bool) (l : List α) :
    firstIdxP p l = none ↔ ∀ x ∈ l, p x = false := by
  induction l with
  | nil => simp [firstIdxP]
  | cons x xs ih =>
    by_cases hp : p x = true
    · simp [firstIdxP, hp]
    · have hpx : p x = false := by
        cases hpq : p x
        · rfl
        · exact absurd hpq hp
      simp [firstIdxP, hpx, ih]

theorem firstIdxP_spec {α : Type} (p : α → Bool) :
    ∀ (l : List α) (r : ℕ), firstIdxP p l = some r →
      ∃ x, l.get? r = some x ∧ p x = true
        ∧ ∀ k, k < r → ∀ y, l.get? k = some y → p y = false := by
  intro l
  induction l with
  | nil => intro r h; simp [firstIdxP] at h
  | cons x xs ih =>
    intro r h
    by_cases hp : p x = true
    · rw [firstIdxP, if_pos hp] at h
      obtain rfl : (0 : ℕ) = r := Option.some.inj h
      exact ⟨x, rfl, hp, fun k hk => absurd hk (Nat.not_lt_zero k)⟩
    · rw [firstIdxP, if_neg hp] at h
      have hpx : p x = false := by
        cases hpq : p x
        · rfl
        · exact absurd hpq hp
      rcases Option.map_eq_some'.1 h with ⟨r', hr', rfl⟩
      obtain ⟨x', hx', hpx', hbefore⟩ := ih r' hr'
      refine ⟨x', by simpa using hx', hpx', ?_⟩
      intro k hk y hy
      cases k with
      | zero =>
        have : y = x := by simpa using hy.symm
        rw [this]
        exact hpx
      | succ k' =>
        exact hbefore k' (by omega) y (by simpa using hy)

/-- `comparer = itemgetter(2, 3, 1)` — `(sortkey, prio, path)`
(main.py line 338). -/
def comparerTriple (it : Item) : String × Int × String :=
  (it.sortkey, it.priority, it.path)

/-- The selection-restore scan of `_updateIndex` (main.py 336-343):

```text
if selected_prev:
    comparer = itemgetter(2, 3, 1)
    current = comparer(selected_prev)
    for row in range(len(self._found_items)):
        if comparer(self._found_items[row]) == current:
            lw.setCurrentRow(row)
            break
```
The result is the row passed to `setCurrentRow`; `none` when there was no
previous selection or no row matches (no selection is forced). -/
def restoreSelection (selected_prev : Option Item) (found : List Item) : Option ℕ :=
  match selected_prev with
  | none => none
  | some prev =>
      firstIdxP (fun it => decide (comparerTriple it = comparerTriple prev)) found

/--
**C8.** For every newly merged list and previously selected item: if some
row's `(sort_key, priority, path)` triple equals the previous selection's,
the commit selects the first such row (every earlier row has a different
triple — the row index need not equal the old one); if no row's triple
matches, the preservation step selects nothing — in particular it never
forces row 0.
-/
theorem C8_selection_preservation (prev : Item) (found : List Item) :
    ((∃ it ∈ found, comparerTriple it = comparerTriple prev) →
      ∃ r, restoreSelection (some prev) found = some r
        ∧ (∃ x, found.get? r = some x ∧ comparerTriple x = comparerTriple prev)
        ∧ ∀ k, k < r → ∀ y, found.get? k = some y →
            comparerTriple y ≠ comparerTriple prev)
    ∧ ((∀ it ∈ found, comparerTriple it ≠ comparerTriple prev) →
        restoreSelection (some prev) found = none) := by
  constructor
  · rintro ⟨it, hit, heq⟩
    rcases hopt : firstIdxP
        (fun x => decide (comparerTriple x = comparerTriple prev)) found with _ | r
    · exfalso
      have hfalse := (firstIdxP_none_iff _ found).1 hopt it hit
      rw [decide_eq_false_iff_not] at hfalse
      exact hfalse heq
    · obtain ⟨x, hgx, hpx, hbefore⟩ := firstIdxP_spec _ found r hopt
      rw [decide_eq_true_eq] at hpx
      refine ⟨r, hopt, ⟨x, hgx, hpx⟩, ?_⟩
      intro k hk y hy
      have := hbefore k hk y hy
      rw [decide_eq_false_iff_not] at this
      exact this
  · intro h
    show firstIdxP _ found = none
    apply (firstIdxP_none_iff _ found).2
    intro x hx
    rw [decide_eq_false_iff_not]
    exact h x hx

/-- Witness for C8: the second row's triple matches the previous selection
(whose display text differs), so row 1 is selected, not row 0. -/
theorem C8_selection_preservation_witness :
    ∃ r, restoreSelection (some ⟨"x", "p", "s", 1⟩)
        [⟨"a", "q", "t", 0⟩, ⟨"y", "p", "s", 1⟩] = some r
      ∧ (∃ x, [⟨"a", "q", "t", 0⟩, (⟨"y", "p", "s", 1⟩ : Item)].get? r = some x
          ∧ comparerTriple x = comparerTriple ⟨"x", "p", "s", 1⟩)
      ∧ ∀ k, k < r → ∀ y,
          [⟨"a", "q", "t", 0⟩, (⟨"y", "p", "s", 1⟩ : Item)].get? k = some y →
          comparerTriple y ≠ comparerTriple ⟨"x", "p", "s", 1⟩ :=
  (C8_selection_preservation ⟨"x", "p", "s", 1⟩
      [⟨"a", "q", "t", 0⟩, ⟨"y", "p", "s", 1⟩]).1
    ⟨⟨"y", "p", "s", 1⟩, by decide, by decide⟩

/-- `s.lower()` on the query/sortkey strings (ASCII case folding). -/
def pyLower (s : String) : List Char := s.toList.map Char.toLower

/-- The match count underlying `SequenceMatcher.quick_ratio`: for each
distinct element of `a`, `min(count in a, count in b)` — difflib computes it
with a running availability table, which yields exactly this sum. -/
def quickRatioMatches (a b : List Char) : ℕ :=
  (a.dedup.map (fun c => min (a.count c) (b.count c))).sum

/-- `SequenceMatcher.quick_ratio` via `_calculate_ratio(matches, len1+len2)`:
`2.0 * matches / length` in binary64, and `1.0` when the total length is
zero. -/
def quickRatioVal (a b : List Char) : ℚ :=
  if a.length + b.length = 0 then 1
  else fl (fl ((2 * quickRatioMatches a b : ℕ) : ℚ)
    / fl ((a.length + b.length : ℕ) : ℚ))

/-- The prefix scan of the fallback selection (main.py 381-387): the first
row whose lowercased sortkey starts with the lowercased, normalized query
text. -/
def prefixScanRow (text : List Char) (items : List Item) : Option ℕ :=
  firstIdxP (fun it => text.isPrefixOf (pyLower it.sortkey)) items

/-- The similarity loop of the fallback selection (main.py 389-401):

```text
row = -1
sm = SequenceMatcher(a=text)
max_ratio = 0
for (r, sortkey) in enumerate(map(sortkey_getter, self._found_items)):
    sm.set_seq2(sortkey)
    ratio = sm.quick_ratio()
    if ratio > max_ratio:
        max_ratio = ratio
        row = r
lw.setCurrentRow(row)
```
The accumulator is the pair `(row, max_ratio)`. -/
def bestRatioAux (text : List Char) : List Item → ℕ → ℤ × ℚ → ℤ × ℚ
  | [], _, best => best
  | it :: rest, idx, best =>
      if best.2 < quickRatioVal text it.sortkey.toList then
        bestRatioAux text rest (idx + 1) ((idx : ℤ), quickRatioVal text it.sortkey.toList)
      else bestRatioAux text rest (idx + 1) best

def bestRatioRow (text : List Char) (items : List Item) : ℤ :=
  (bestRatioAux text items 0 (-1, 0)).1

/-- The fallback branch of `selectItemRelative` (main.py 379-401), entered
when there is no current selection or the query box has focus; `text` is the
case-folded, normalized query (`normalize_index_key(...).lower()` — the
normalization lives outside this module).  The result is the row passed to
`setCurrentRow`; `-1` clears the selection. -/
def selectFallbackRow (text : List Char) (items : List Item) : ℤ :=
  match prefixScanRow text items with
  | some r => (r : ℤ)
  | none => bestRatioRow text items

theorem bestRatioAux_const (text : List Char) :
    ∀ (l : List Item) (idx : ℕ) (best : ℤ × ℚ),
      (∀ it ∈ l, quickRatioVal text it.sortkey.toList ≤ best.2) →
      bestRatioAux text l idx best = best := by
  intro l
  induction l with
  | nil => intro idx best _; rfl
  | cons it rest ih =>
    intro idx best h
    rw [bestRatioAux, if_neg (not_lt.2 (h it (List.mem_cons_self it rest)))]
    exact ih (idx + 1) best (fun x hx => h x (List.mem_cons_of_mem it hx))

theorem bestRatioAux_spec (text : List Char) :
    ∀ (l : List Item) (idx : ℕ) (r0 : ℤ) (m0 : ℚ),
      (∃ it ∈ l, m0 < quickRatioVal text it.sortkey.toList) →
      ∃ j, ∃ (hj : j < l.length),
        bestRatioAux text l idx (r0, m0)
          = (((idx + j : ℕ) : ℤ), quickRatioVal text (l.get ⟨j, hj⟩).sortkey.toList)
        ∧ m0 < quickRatioVal text (l.get ⟨j, hj⟩).sortkey.toList
        ∧ (∀ k (hk : k < l.length), quickRatioVal text (l.get ⟨k, hk⟩).sortkey.toList
              ≤ quickRatioVal text (l.get ⟨j, hj⟩).sortkey.toList)
        ∧ (∀ k (hk : k < l.length), k < j →
              quickRatioVal text (l.get ⟨k, hk⟩).sortkey.toList
                < quickRatioVal text (l.get ⟨j, hj⟩).sortkey.toList) := by
  intro l
  induction l with
  | nil =>
    rintro idx r0 m0 ⟨it, hit, _⟩
    exact absurd hit (List.not_mem_nil it)
  | cons it rest ih =>
    intro idx r0 m0 hex
    by_cases h1 : m0 < quickRatioVal text it.sortkey.toList
    · rw [bestRatioAux, if_pos h1]
      by_cases h2 : ∃ x ∈ rest,
          quickRatioVal text it.sortkey.toList < quickRatioVal text x.sortkey.toList
      · obtain ⟨j', hj', heq, hgt, hmax, hfirst⟩ :=
          ih (idx + 1) (idx : ℤ) (quickRatioVal text it.sortkey.toList) h2
        refine ⟨j' + 1, Nat.succ_lt_succ hj', ?_, ?_, ?_, ?_⟩
        · rw [show idx + (j' + 1) = idx + 1 + j' from by omega]
          exact heq
        · exact lt_trans h1 hgt
        · intro k hk
          cases k with
          | zero => exact le_of_lt hgt
          | succ k' => exact hmax k' (Nat.lt_of_succ_lt_succ hk)
        · intro k hk hkj
          cases k with
          | zero => exact hgt
          | succ k' =>
            exact hfirst k' (Nat.lt_of_succ_lt_succ hk) (Nat.lt_of_succ_lt_succ hkj)
      · push_neg at h2
        have heq := bestRatioAux_const text rest (idx + 1)
          ((idx : ℤ), quickRatioVal text it.sortkey.toList) h2
        refine ⟨0, Nat.succ_pos _, ?_, h1, ?_, ?_⟩
        · rw [heq]
          rfl
        · intro k hk
          cases k with
          | zero => exact le_refl _
          | succ k' =>
            exact h2 _ (List.get_mem rest _ _)
        · intro k _ hkj
          exact absurd hkj (Nat.not_lt_zero k)
    · rw [bestRatioAux, if_neg h1]
      have h2 : ∃ x ∈ rest, m0 < quickRatioVal text x.sortkey.toList := by
        obtain ⟨x, hx, hqx⟩ := hex
        rcases List.mem_cons.1 hx with rfl | hx'
        · exact absurd hqx h1
        · exact ⟨x, hx', hqx⟩
      obtain ⟨j', hj', heq, hgt, hmax, hfirst⟩ := ih (idx + 1) r0 m0 h2
      refine ⟨j' + 1, Nat.succ_lt_succ hj', ?_, hgt, ?_, ?_⟩
      · rw [show idx + (j' + 1) = idx + 1 + j' from by omega]
        exact heq
      · intro k hk
        cases k with
        | zero => exact le_trans (not_lt.1 h1) (le_of_lt hgt)
        | succ k' => exact hmax k' (Nat.lt_of_succ_lt_succ hk)
      · intro k hk hkj
        cases k with
        | zero => exact lt_of_le_of_lt (not_lt.1 h1) hgt
        | succ k' =>
          exact hfirst k' (Nat.lt_of_succ_lt_succ hk) (Nat.lt_of_succ_lt_succ hkj)

/--
**C9 counterexample.** Fallback selection with query text `"z"` over the
single-item list whose sortkey is `"a"`: there is no prefix match, the
(unique, hence highest) quick-ratio is `0`, yet the code selects row `-1`
(clearing the selection) instead of the highest-ratio item at row `0` —
because the loop updates only on a *strictly* positive improvement over the
initial `max_ratio = 0`.
-/
theorem C9_fallback_counterexample :
    prefixScanRow (String.toList "z") [⟨"x", "p", "a", 0⟩] = none
    ∧ selectFallbackRow (String.toList "z") [⟨"x", "p", "a", 0⟩] = -1
    ∧ (-1 : ℤ) ≠ 0 := by
  have hq : quickRatioVal (String.toList "z") (String.toList "a") = 0 := by
    unfold quickRatioVal
    rw [if_neg (by decide),
      show quickRatioMatches (String.toList "z") (String.toList "a") = 0 from by decide,
      show ((2 * 0 : ℕ) : ℚ) = 0 from by norm_num, fl_zero, zero_div, fl_zero]
  have hnone : prefixScanRow (String.toList "z") [⟨"x", "p", "a", 0⟩] = none := by
    decide
  refine ⟨hnone, ?_, by decide⟩
  have hsel : selectFallbackRow (String.toList "z") [⟨"x", "p", "a", 0⟩]
      = bestRatioRow (String.toList "z") [⟨"x", "p", "a", 0⟩] := by
    unfold selectFallbackRow
    rw [hnone]
  have hall : ∀ it ∈ [(⟨"x", "p", "a", 0⟩ : Item)],
      quickRatioVal (String.toList "z") it.sortkey.toList ≤ ((-1 : ℤ), (0:ℚ)).2 := by
    intro it hit
    have heq : it = ⟨"x", "p", "a", 0⟩ := by simpa using hit
    rw [heq]
    exact le_of_eq hq
  rw [hsel]
  unfold bestRatioRow
  rw [bestRatioAux_const (String.toList "z") [⟨"x", "p", "a", 0⟩] 0 (-1, 0) hall]

/--
**C9 (amended).** For every non-empty found-items list, the fallback
selection selects the first item whose case-folded sort key starts with the
case-folded, normalized query text; if no prefix match exists, it selects
the first item attaining the maximal quick-ratio similarity, provided that
maximum is strictly positive (earlier items have strictly smaller ratios,
so ties go to the first occurrence); when every item's ratio is zero, no
item is selected: the row is set to −1, clearing the selection.
-/
theorem C9_fallback_selection_amended (text : List Char) (items : List Item)
    (_hne : items ≠ []) :
    (∀ r, prefixScanRow text items = some r →
        selectFallbackRow text items = (r : ℤ)
        ∧ (∃ x, items.get? r = some x ∧ text.isPrefixOf (pyLower x.sortkey) = true)
        ∧ ∀ k, k < r → ∀ y, items.get? k = some y →
            text.isPrefixOf (pyLower y.sortkey) = false)
    ∧ ((∃ it ∈ items, text.isPrefixOf (pyLower it.sortkey) = true) →
        prefixScanRow text items ≠ none)
    ∧ (prefixScanRow text items = none →
        ((∃ it ∈ items, 0 < quickRatioVal text it.sortkey.toList) →
          ∃ j, ∃ (hj : j < items.length),
            selectFallbackRow text items = (j : ℤ)
            ∧ 0 < quickRatioVal text ((items.get ⟨j, hj⟩).sortkey.toList)
            ∧ (∀ k (hk : k < items.length),
                quickRatioVal text ((items.get ⟨k, hk⟩).sortkey.toList)
                  ≤ quickRatioVal text ((items.get ⟨j, hj⟩).sortkey.toList))
            ∧ (∀ k (hk : k < items.length), k < j →
                quickRatioVal text ((items.get ⟨k, hk⟩).sortkey.toList)
                  < quickRatioVal text ((items.get ⟨j, hj⟩).sortkey.toList)))
        ∧ ((∀ it ∈ items, quickRatioVal text it.sortkey.toList ≤ 0) →
            selectFallbackRow text items = -1)) := by
  refine ⟨?_, ?_, ?_⟩
  · intro r hr
    have hr' : firstIdxP (fun it => text.isPrefixOf (pyLower it.sortkey)) items
        = some r := hr
    refine ⟨?_, ?_, ?_⟩
    · unfold selectFallbackRow
      rw [hr]
    · obtain ⟨x, hgx, hpx, _⟩ :=
        firstIdxP_spec (fun it => text.isPrefixOf (pyLower it.sortkey)) items r hr'
      exact ⟨x, hgx, hpx⟩
    · obtain ⟨_, _, _, hbefore⟩ :=
        firstIdxP_spec (fun it => text.isPrefixOf (pyLower it.sortkey)) items r hr'
      exact hbefore
  · rintro ⟨it, hit, hp⟩ hnone
    have hnone' : firstIdxP (fun it => text.isPrefixOf (pyLower it.sortkey)) items
        = none := hnone
    have hfalse := (firstIdxP_none_iff
      (fun it => text.isPrefixOf (pyLower it.sortkey)) items).1 hnone' it hit
    rw [hp] at hfalse
    exact Bool.noConfusion hfalse
  · intro hnone
    have hsel : selectFallbackRow text items = bestRatioRow text items := by
      unfold selectFallbackRow
      rw [hnone]
    constructor
    · intro hex
      obtain ⟨j, hj, heq, hgt, hmax, hfirst⟩ :=
        bestRatioAux_spec text items 0 (-1) 0 hex
      refine ⟨j, hj, ?_, hgt, hmax, hfirst⟩
      rw [hsel]
      unfold bestRatioRow
      rw [heq]
      simp
    · intro hall
      rw [hsel]
      unfold bestRatioRow
      rw [bestRatioAux_const text items 0 (-1, 0) hall]

/-- Witness for the amended C9: query text `"a"`, list `["zzz", "Abc"]`
(by sortkey) — the prefix scan selects row 1, whose lowercased sortkey
starts with `"a"`, while row 0's does not. -/
theorem C9_fallback_selection_witness :
    selectFallbackRow (String.toList "a")
        [⟨"t1", "p1", "zzz", 0⟩, ⟨"t2", "p2", "Abc", 0⟩] = ((1 : ℕ) : ℤ)
    ∧ (∃ x, [⟨"t1", "p1", "zzz", 0⟩, (⟨"t2", "p2", "Abc", 0⟩ : Item)].get? 1 = some x
        ∧ (String.toList "a").isPrefixOf (pyLower x.sortkey) = true)
    ∧ ∀ k, k < 1 → ∀ y,
        [⟨"t1", "p1", "zzz", 0⟩, (⟨"t2", "p2", "Abc", 0⟩ : Item)].get? k = some y →
        (String.toList "a").isPrefixOf (pyLower y.sortkey) = false :=
  (C9_fallback_selection_amended (String.toList "a")
      [⟨"t1", "p1", "zzz", 0⟩, ⟨"t2", "p2", "Abc", 0⟩] (by decide)).1 1 (by decide)
